import Mathlib

/-!
# Verification of the IkaLanguage lexicon / phrase-matching engine

Shallow embedding, in Lean 4, of the core algorithms of the IkaLanguage
backend (`app/nlp/phrasebank.py`, `app/lexicon_service.py`,
`app/lexicon_store.py`, `app/dataset_generator.py`, `app/slot_filler.py`,
`app/generator.py`, `app/tts/ssml.py`), together with theorems settling the
spec claims about them.

Modelling conventions:
* Python strings are Lean `String`s; character-level scans work on `String.data`.
* Python regex scans (`re.finditer` / `re.findall`) are embedded as
  single-pass structural scanners over `List Char` that produce the same
  token lists as the corresponding regexes on their input class.
* `random.choice` is embedded by threading an explicit natural-number seed
  `r` and picking index `r % length` (total on nonempty lists, `none` on
  empty ones, mirroring the call-site guards in the source).
* Python's `sorted` is a stable sort; a stable sort's output is uniquely
  determined by the comparison key and the input order, so it is embedded
  either by Mathlib's stable `List.insertionSort` or (for a two-valued key)
  by the equivalent stable partition, as noted at each definition.
* Float comparisons against the constant `0.35` are modelled exactly over
  the rationals (denominators cleared in the executable definition).
-/

namespace Ika

/-! ## Common character/string helpers -/

/-- ASCII lower-case letter test: the character class `[a-z]` of
`WORD_RE` in `app/nlp/phrasebank.py` (the input is lower-cased first, so
the `IGNORECASE` flag adds nothing). -/
def isLowerAlpha (c : Char) : Bool := 'a' ≤ c && c ≤ 'z'

/-- Python whitespace class `\s` (ASCII part): space, tab, newline,
carriage return, vertical tab, form feed. -/
def isPySpace (c : Char) : Bool :=
  c = ' ' || c = '\t' || c = '\n' || c = '\r' || c = '\x0b' || c = '\x0c'

/-- `" ".join(parts)` from Python. -/
def joinSpace : List String → String
  | [] => ""
  | [x] => x
  | x :: xs => x ++ " " ++ joinSpace xs

/-- Substring test `needle in hay` on character lists (Python `in` for
`str`). -/
def listContainsSub (needle : List Char) : List Char → Bool
  | [] => needle.isEmpty
  | c :: t => needle.isPrefixOf (c :: t) || listContainsSub needle t

/-- `random.choice` modelled with an explicit seed: pick index
`r % length`; `none` exactly on the empty list. -/
def pickIdx (r : Nat) (l : List α) : Option α := l.get? (r % l.length)

/-! ## `app/nlp/phrasebank.py` — tokenizer, trie, longest match, chunking -/

/-- One step of the char substitution `text.replace("’", "'")`
(`tokenize_en`, phrasebank.py line 16). -/
def replaceCurlyQuote (c : Char) : Char := if c = '’' then '\'' else c

/-- Scanner for `WORD_RE = [a-z]+(?:'[a-z]+)?` over an already lower-cased
character list, as `re.finditer` walks it: skip non-letters; on a letter,
take the maximal letter run, then at most one apostrophe followed by a
maximal letter run; resume after the match.  `st` is the scanner state
(0 = outside a token, 1 = inside the first letter run, 2 = inside the
letter run after the apostrophe) and `cur` the current token, reversed. -/
def tokenizeEnAux : Nat → List Char → List Char → List (List Char)
  | 0, _, [] => []
  | 0, _, c :: cs =>
    if isLowerAlpha c then tokenizeEnAux 1 [c] cs else tokenizeEnAux 0 [] cs
  | 1, cur, [] => [cur.reverse]
  | 1, cur, c :: cs =>
    if isLowerAlpha c then tokenizeEnAux 1 (c :: cur) cs
    else if c = '\'' then
      match cs with
      | [] => [cur.reverse]
      | d :: ds =>
        if isLowerAlpha d then tokenizeEnAux 2 (d :: '\'' :: cur) ds
        else cur.reverse :: tokenizeEnAux 0 [] (d :: ds)
    else cur.reverse :: tokenizeEnAux 0 [] cs
  | _, cur, [] => [cur.reverse]
  | _, cur, c :: cs =>
    if isLowerAlpha c then tokenizeEnAux 2 (c :: cur) cs
    else cur.reverse :: tokenizeEnAux 0 [] cs

/-- `tokenize_en` (phrasebank.py lines 13-17): lower-case, map `’` to `'`,
then scan with `WORD_RE`. -/
def tokenize_en (text : String) : List String :=
  if text = "" then []
  else
    (tokenizeEnAux 0 [] ((text.data.map Char.toLower).map replaceCurlyQuote)).map
      fun l => String.mk l

/-- `PhraseItem` (phrasebank.py lines 20-25). -/
structure PhraseItem where
  id : String
  english : String
  ika : String
  tags : List String
deriving DecidableEq, Repr

/-- `PhraseMatch` (phrasebank.py lines 28-35). -/
structure PhraseMatch where
  id : String
  english : String
  ika : String
  start : Nat
  stop : Nat
  tags : List String
deriving DecidableEq, Repr

/-- `_TrieNode` (phrasebank.py lines 38-43): children as an
insertion-ordered association list (Python `dict`), plus the items that
terminate at this node. -/
inductive TrieNode where
  | mk (children : List (String × TrieNode)) (items : List PhraseItem)

def TrieNode.children : TrieNode → List (String × TrieNode)
  | .mk c _ => c

def TrieNode.items : TrieNode → List PhraseItem
  | .mk _ i => i

/-- `children.setdefault(t, _TrieNode())` followed by an update of that
child: existing keys keep their position, a missing key is appended (Python
dict insertion order). -/
def setdefaultChild (f : TrieNode → TrieNode) (t : String) :
    List (String × TrieNode) → List (String × TrieNode)
  | [] => [(t, f (TrieNode.mk [] []))]
  | (k, c) :: rest =>
    if k = t then (k, f c) :: rest else (k, c) :: setdefaultChild f t rest

/-- One insertion of `_build_trie` (phrasebank.py lines 85-93): descend the
token list creating children as needed and append the item at the final
node. -/
def trieInsert : List String → PhraseItem → TrieNode → TrieNode
  | [], it, n => TrieNode.mk n.children (n.items ++ [it])
  | t :: ts, it, n => TrieNode.mk (setdefaultChild (trieInsert ts it) t n.children) n.items

/-- `_build_trie` over the full item list (items whose English tokenizes to
nothing are skipped). -/
def buildTrie (items : List PhraseItem) : TrieNode :=
  items.foldl
    (fun n it =>
      let toks := tokenize_en it.english
      if toks.isEmpty then n else trieInsert toks it n)
    (TrieNode.mk [] [])

/-- `children[t]` / `t in children`: lookup in the association list that
models the Python child dict. -/
def lookupChild (k : String) : List (String × TrieNode) → Option TrieNode
  | [] => none
  | (a, c) :: rest => if k = a then some c else lookupChild k rest

/-- Items stored at the end of a token path (empty when the path is
absent from the trie). -/
def itemsAt : TrieNode → List String → List PhraseItem
  | n, [] => n.items
  | n, k :: ks =>
    match lookupChild k n.children with
    | none => []
    | some c => itemsAt c ks

/-- The walk of `find_longest_at` (phrasebank.py lines 95-114): follow
child edges from position `j`, remembering `(node.items[0], j + 1)` each
time the reached node has terminal items. -/
def findLongestFrom : TrieNode → List String → Nat → Option (PhraseItem × Nat) →
    Option (PhraseItem × Nat)
  | _, [], _, best => best
  | n, t :: r, j, best =>
    match lookupChild t n.children with
    | none => best
    | some c =>
      findLongestFrom c r (j + 1)
        (match c.items with
         | [] => best
         | it :: _ => some (it, j + 1))

/-- `find_longest_at(tokens, i)` (phrasebank.py lines 95-114). -/
def find_longest_at (root : TrieNode) (tokens : List String) (i : Nat) :
    Option (PhraseItem × Nat) :=
  findLongestFrom root (tokens.drop i) i none

/-- The scan loop of `chunk` (phrasebank.py lines 121-144), with explicit
fuel (each iteration advances `i` by at least one, so `tokens.length`
steps of fuel always suffice; `chunk` supplies that much). -/
def chunkFuel (root : TrieNode) (tokens : List String) : Nat → Nat →
    List String × List PhraseMatch
  | 0, _ => ([], [])
  | fuel + 1, i =>
    if i < tokens.length then
      match find_longest_at root tokens i with
      | none => chunkFuel root tokens fuel (i + 1)
      | some (item, e) =>
        let rest := chunkFuel root tokens fuel e
        (if item.ika ≠ "" then item.ika :: rest.1 else rest.1,
          ⟨item.id, item.english, item.ika, i, e, item.tags⟩ :: rest.2)
    else ([], [])

/-- `PhraseBank.chunk` (phrasebank.py lines 116-146) for a bank whose trie
was built from `items`. -/
def chunk (items : List PhraseItem) (english_text : String) :
    List String × List PhraseMatch :=
  let tokens := tokenize_en english_text
  chunkFuel (buildTrie items) tokens tokens.length 0

end Ika



namespace Ika

/-! ### Lemmas about the trie and the longest-match walk -/

@[simp] theorem TrieNode.children_mk (c : List (String × TrieNode)) (i : List PhraseItem) :
    (TrieNode.mk c i).children = c := rfl

@[simp] theorem TrieNode.items_mk (c : List (String × TrieNode)) (i : List PhraseItem) :
    (TrieNode.mk c i).items = i := rfl

theorem itemsAt_emptyNode (ks : List String) : itemsAt (TrieNode.mk [] []) ks = [] := by
  cases ks <;> simp [itemsAt, lookupChild]

theorem lookupChild_setdefaultChild (f : TrieNode → TrieNode) (t k : String) :
    ∀ ch : List (String × TrieNode),
      lookupChild k (setdefaultChild f t ch) =
        if k = t then some (f ((lookupChild t ch).getD (TrieNode.mk [] [])))
        else lookupChild k ch := by
  intro ch
  induction ch with
  | nil => by_cases h : k = t <;> simp [setdefaultChild, lookupChild, h]
  | cons hd tl ih =>
    obtain ⟨a, c⟩ := hd
    by_cases hat : a = t
    · subst hat
      by_cases hka : k = a <;> simp [setdefaultChild, lookupChild, hka]
    · have hta : ¬ t = a := fun h => hat h.symm
      by_cases hka : k = a
      · subst hka
        simp [setdefaultChild, hat, lookupChild]
      · simp [setdefaultChild, hat, lookupChild, hka, ih, hta]

theorem itemsAt_trieInsert (it : PhraseItem) :
    ∀ (ks' ks : List String) (n : TrieNode),
      itemsAt (trieInsert ks' it n) ks =
        itemsAt n ks ++ if ks = ks' then [it] else [] := by
  intro ks'
  induction ks' with
  | nil =>
    intro ks n
    obtain ⟨ch, its⟩ := n
    cases ks with
    | nil => simp [trieInsert, itemsAt]
    | cons k kr =>
      simp only [trieInsert, itemsAt, TrieNode.children_mk, TrieNode.items_mk]
      cases lookupChild k ch <;> simp
  | cons t ts ih =>
    intro ks n
    obtain ⟨ch, its⟩ := n
    cases ks with
    | nil => simp [trieInsert, itemsAt]
    | cons k kr =>
      by_cases hk : k = t
      · subst hk
        cases hc : lookupChild k ch with
        | none =>
          simp [trieInsert, itemsAt, lookupChild_setdefaultChild, hc,
            ih, itemsAt_emptyNode]
        | some c =>
          simp [trieInsert, itemsAt, lookupChild_setdefaultChild, hc, ih]
      · have hne : ¬ (k :: kr = t :: ts) := by
          intro h
          exact hk (List.cons_eq_cons.mp h).1
        simp only [trieInsert, itemsAt, TrieNode.children_mk,
          lookupChild_setdefaultChild, if_neg hk, if_neg hne, List.append_nil]

/-- Every phrase of the bank with a nonempty token list is accepted by the
built trie (its path ends at a node with terminal items). -/
theorem buildTrie_accepts :
    ∀ (items : List PhraseItem) (p : PhraseItem), p ∈ items →
      tokenize_en p.english ≠ [] →
      itemsAt (buildTrie items) (tokenize_en p.english) ≠ [] := by
  have main : ∀ (l : List PhraseItem) (n : TrieNode) (ks : List String), ks ≠ [] →
      (itemsAt n ks ≠ [] ∨ ∃ p ∈ l, tokenize_en p.english = ks) →
      itemsAt (l.foldl
        (fun n it =>
          let toks := tokenize_en it.english
          if toks.isEmpty then n else trieInsert toks it n)
        n) ks ≠ [] := by
    intro l
    induction l with
    | nil =>
      intro n ks _ h
      rcases h with h | ⟨p, hp, _⟩
      · simpa using h
      · exact absurd hp (List.not_mem_nil p)
    | cons q l ih =>
      intro n ks hks h
      simp only [List.foldl_cons]
      apply ih _ ks hks
      rcases h with h | ⟨p, hp, hptoks⟩
      · left
        cases hq : (tokenize_en q.english).isEmpty with
        | true => simpa [hq] using h
        | false =>
          simp only [hq, Bool.false_eq_true, if_false]
          rw [itemsAt_trieInsert]
          simp only [ne_eq, List.append_eq_nil]
          intro hcontra
          exact h hcontra.1
      · rcases List.mem_cons.mp hp with hpq | hpl
        · subst hpq
          left
          have hne : (tokenize_en p.english).isEmpty = false := by
            rw [hptoks]
            simpa [List.isEmpty_iff] using hks
          simp only [hne, Bool.false_eq_true, if_false]
          rw [itemsAt_trieInsert, hptoks, if_pos rfl]
          simp
        · right
          exact ⟨p, hpl, hptoks⟩
  intro items p hp htoks
  exact main items (TrieNode.mk [] []) _ htoks (Or.inr ⟨p, hp, rfl⟩)

/-- Once a best candidate is stored, the walk returns some result, and
never one with a smaller end position. -/
theorem findLongestFrom_some_mono :
    ∀ (rest : List String) (n : TrieNode) (j : Nat) (p : PhraseItem × Nat),
      p.2 ≤ j + 1 →
      ∃ r, findLongestFrom n rest j (some p) = some r ∧ p.2 ≤ r.2 := by
  intro rest
  induction rest with
  | nil => intro n j p hp; exact ⟨p, rfl, le_refl _⟩
  | cons t r ih =>
    intro n j p hp
    cases hl : lookupChild t n.children with
    | none =>
      simp only [findLongestFrom, hl]
      exact ⟨p, rfl, le_refl _⟩
    | some c =>
      cases hit : c.items with
      | nil =>
        simp only [findLongestFrom, hl, hit]
        exact ih c (j + 1) p (le_trans hp (Nat.le_succ _))
      | cons it0 tl =>
        simp only [findLongestFrom, hl, hit]
        obtain ⟨r0, hr0, hle⟩ := ih c (j + 1) (it0, j + 1) (Nat.le_succ _)
        exact ⟨r0, hr0, le_trans hp hle⟩

/-- Position bounds of the walk: under the invariant that any stored best
candidate ends in `(i0, j]`, a returned result ends in
`(i0, j + rest.length]`. -/
theorem findLongestFrom_bounds :
    ∀ (rest : List String) (n : TrieNode) (j i0 : Nat)
      (best : Option (PhraseItem × Nat)), i0 ≤ j →
      (∀ p, best = some p → i0 < p.2 ∧ p.2 ≤ j) →
      ∀ r, findLongestFrom n rest j best = some r →
        i0 < r.2 ∧ r.2 ≤ j + rest.length := by
  intro rest
  induction rest with
  | nil =>
    intro n j i0 best _ hinv r hr
    simp only [findLongestFrom] at hr
    simpa [Nat.add_zero] using hinv r hr
  | cons t rr ih =>
    intro n j i0 best hij hinv r hr
    cases hl : lookupChild t n.children with
    | none =>
      simp only [findLongestFrom, hl] at hr
      have := hinv r hr
      exact ⟨this.1, le_trans this.2 (Nat.le_add_right _ _)⟩
    | some c =>
      cases hit : c.items with
      | nil =>
        simp only [findLongestFrom, hl, hit] at hr
        have := ih c (j + 1) i0 best (le_trans hij (Nat.le_succ _))
          (fun p hp => ⟨(hinv p hp).1, le_trans (hinv p hp).2 (Nat.le_succ _)⟩) r hr
        exact ⟨this.1, by simpa [Nat.succ_add] using this.2⟩
      | cons it0 tl =>
        simp only [findLongestFrom, hl, hit] at hr
        have := ih c (j + 1) i0 (some (it0, j + 1)) (le_trans hij (Nat.le_succ _))
          (fun p hp => by
            cases hp
            exact ⟨Nat.lt_succ_of_le hij, le_refl _⟩) r hr
        exact ⟨this.1, by simpa [Nat.succ_add] using this.2⟩

/-- `find_longest_at` only returns matches that start strictly before
their end and end within the token list. -/
theorem find_longest_at_bounds (root : TrieNode) (tokens : List String) (i : Nat)
    (it : PhraseItem) (e : Nat) (h : find_longest_at root tokens i = some (it, e)) :
    i < e ∧ e ≤ tokens.length := by
  have hb := findLongestFrom_bounds (tokens.drop i) root i i none (le_refl i)
    (fun p hp => by cases hp) (it, e) h
  refine ⟨hb.1, ?_⟩
  have hlen : (tokens.drop i).length = tokens.length - i := List.length_drop i tokens
  have := hb.2
  rw [hlen] at this
  omega

/-- Maximality of the walk: if the trie accepts a nonempty token path `ks`
that is a prefix of the remaining tokens, the walk returns a result whose
end position is at least `j + ks.length`, whatever best candidate is
already stored. -/
theorem findLongestFrom_maximal :
    ∀ (ks : List String) (n : TrieNode) (rest : List String) (j : Nat)
      (best : Option (PhraseItem × Nat)),
      itemsAt n ks ≠ [] → ks ≠ [] → ks.isPrefixOf rest →
      ∃ r, findLongestFrom n rest j best = some r ∧ j + ks.length ≤ r.2 := by
  intro ks
  induction ks with
  | nil => intro n rest j best _ hne _; exact absurd rfl hne
  | cons k ks' ih =>
    intro n rest j best hacc _ hpre
    cases rest with
    | nil => simp [List.isPrefixOf] at hpre
    | cons t rr =>
      have hkt : k = t ∧ ks'.isPrefixOf rr := by
        simpa [List.isPrefixOf, Bool.and_eq_true, beq_iff_eq] using hpre
      obtain ⟨hkt1, hpre'⟩ := hkt
      subst hkt1
      cases hl : lookupChild k n.children with
      | none => simp only [itemsAt, hl, ne_eq, not_true_eq_false] at hacc
      | some c =>
        simp only [itemsAt, hl] at hacc
        rcases eq_or_ne ks' ([] : List String) with hks | hks
        · subst hks
          simp only [itemsAt] at hacc
          cases hit : c.items with
          | nil => exact absurd hit hacc
          | cons it0 tl =>
            simp only [findLongestFrom, hl, hit]
            obtain ⟨r, hr, hle⟩ :=
              findLongestFrom_some_mono rr c (j + 1) (it0, j + 1) (Nat.le_succ _)
            exact ⟨r, hr, by simpa using hle⟩
        · cases hit : c.items with
          | nil =>
            simp only [findLongestFrom, hl, hit]
            obtain ⟨r, hr, hle⟩ := ih c rr (j + 1) best hacc hks hpre'
            refine ⟨r, hr, ?_⟩
            have harith : j + (ks'.length + 1) = (j + 1) + ks'.length := by omega
            simpa [List.length_cons, harith] using hle
          | cons it0 tl =>
            simp only [findLongestFrom, hl, hit]
            obtain ⟨r, hr, hle⟩ := ih c rr (j + 1) (some (it0, j + 1)) hacc hks hpre'
            refine ⟨r, hr, ?_⟩
            have harith : j + (ks'.length + 1) = (j + 1) + ks'.length := by omega
            simpa [List.length_cons, harith] using hle

/-- Full invariant of the chunk scan loop: with enough fuel, every match
record lies in `[i, tokens.length)` bounds, records are ordered and
non-overlapping, each record is exactly what `find_longest_at` returned at
its start position, and the chunk list is the list of nonempty targets of
the records in order. -/
theorem chunkFuel_inv (root : TrieNode) (tokens : List String) :
    ∀ (fuel i : Nat), tokens.length ≤ i + fuel →
      (∀ m ∈ (chunkFuel root tokens fuel i).2,
          i ≤ m.start ∧ m.start < m.stop ∧ m.stop ≤ tokens.length ∧
          ∃ it, find_longest_at root tokens m.start = some (it, m.stop) ∧
            m = ⟨it.id, it.english, it.ika, m.start, m.stop, it.tags⟩)
      ∧ List.Chain' (fun a b => a.stop ≤ b.start) (chunkFuel root tokens fuel i).2
      ∧ (chunkFuel root tokens fuel i).1 =
          ((chunkFuel root tokens fuel i).2.filter (fun m => m.ika ≠ "")).map
            (fun m => m.ika) := by
  intro fuel
  induction fuel with
  | zero => intro i _; simp [chunkFuel]
  | succ fuel ih =>
    intro i hlen
    by_cases hi : i < tokens.length
    · cases hf : find_longest_at root tokens i with
      | none =>
        simp only [chunkFuel, if_pos hi, hf]
        obtain ⟨h1, h2, h3⟩ := ih (i + 1) (by omega)
        exact ⟨fun m hm => ⟨le_trans (Nat.le_succ i) (h1 m hm).1, (h1 m hm).2⟩, h2, h3⟩
      | some r =>
        obtain ⟨it, e⟩ := r
        obtain ⟨hie, helen⟩ := find_longest_at_bounds root tokens i it e hf
        obtain ⟨h1, h2, h3⟩ := ih e (by omega)
        simp only [chunkFuel, if_pos hi, hf]
        refine ⟨?_, ?_, ?_⟩
        · intro m hm
          rcases List.mem_cons.mp hm with hm0 | hmr
          · subst hm0
            exact ⟨le_refl i, hie, helen, it, hf, rfl⟩
          · have := h1 m hmr
            exact ⟨le_trans (le_of_lt hie) this.1, this.2⟩
        · refine List.chain'_cons'.mpr ⟨?_, h2⟩
          intro b hb
          have hbmem : b ∈ (chunkFuel root tokens fuel e).2 :=
            List.mem_of_mem_head? hb
          exact (h1 b hbmem).1
        · by_cases hika : it.ika = ""
          · simp [hika, h3]
          · simp [hika, h3]
    · simp [chunkFuel, hi]

/-- C10 (implicit claim): the match records returned by `chunk` form an
ordered, non-overlapping cover fragment of the token sequence — every
record satisfies `start < stop ≤ length`, records appear with strictly
increasing starts and with each record's end at most the next record's
start, and the chunk sequence is exactly the list of nonempty target
texts of the records, in order. -/
theorem chunk_matches_ordered_cover (items : List PhraseItem) (text : String) :
    (∀ m ∈ (chunk items text).2,
        m.start < m.stop ∧ m.stop ≤ (tokenize_en text).length)
    ∧ List.Chain' (fun a b => a.stop ≤ b.start) (chunk items text).2
    ∧ List.Chain' (fun a b => a.start < b.start) (chunk items text).2
    ∧ (chunk items text).1 =
        ((chunk items text).2.filter (fun m => m.ika ≠ "")).map (fun m => m.ika) := by
  obtain ⟨h1, h2, h3⟩ :=
    chunkFuel_inv (buildTrie items) (tokenize_en text) (tokenize_en text).length 0
      (by omega)
  have hbounds : ∀ m ∈ (chunk items text).2,
      m.start < m.stop ∧ m.stop ≤ (tokenize_en text).length :=
    fun m hm => ⟨(h1 m hm).2.1, (h1 m hm).2.2.1⟩
  refine ⟨hbounds, h2, ?_, h3⟩
  have : ∀ l : List PhraseMatch,
      List.Chain' (fun a b => a.stop ≤ b.start) l →
      (∀ m ∈ l, m.start < m.stop) →
      List.Chain' (fun a b => a.start < b.start) l := by
    intro l
    induction l with
    | nil => intro _ _; exact List.chain'_nil
    | cons a l ihl =>
      intro hc hall
      obtain ⟨hhead, htail⟩ := List.chain'_cons'.mp hc
      refine List.chain'_cons'.mpr ⟨?_, ihl htail (fun m hm => hall m (List.mem_cons_of_mem a hm))⟩
      intro b hb
      have hab := hhead b hb
      have := hall a (List.mem_cons_self a l)
      omega
  exact this _ h2 (fun m hm => (hbounds m hm).1)

/-- Witness for C10 at a concrete bank and input. -/
theorem chunk_matches_ordered_cover_witness :
    List.Chain'
      (fun a b => a.stop ≤ b.start)
      (chunk [⟨"2", "good morning", "ndewo", []⟩, ⟨"1", "good", "oma", []⟩]
        "good morning good friend").2 :=
  (chunk_matches_ordered_cover
    [⟨"2", "good morning", "ndewo", []⟩, ⟨"1", "good", "oma", []⟩]
    "good morning good friend").2.1

/-- C1: `chunk` never reports a shorter match when a longer verified
phrase also matches at the same start offset — for every match record `m`
and every phrase `p` of the bank whose (nonempty) token list occurs at
`m.start`, the reported end is at least `m.start` plus the length of
`p`. -/
theorem chunk_reports_longest_match (items : List PhraseItem) (text : String)
    (m : PhraseMatch) (p : PhraseItem)
    (hm : m ∈ (chunk items text).2) (hp : p ∈ items)
    (hne : tokenize_en p.english ≠ [])
    (hmatch : (tokenize_en p.english).isPrefixOf
      ((tokenize_en text).drop m.start)) :
    m.start + (tokenize_en p.english).length ≤ m.stop := by
  obtain ⟨h1, _, _⟩ :=
    chunkFuel_inv (buildTrie items) (tokenize_en text) (tokenize_en text).length 0
      (by omega)
  obtain ⟨_, _, _, it, hf, _⟩ := h1 m hm
  have hacc := buildTrie_accepts items p hp hne
  obtain ⟨r, hr, hle⟩ := findLongestFrom_maximal (tokenize_en p.english)
    (buildTrie items) ((tokenize_en text).drop m.start) m.start none hacc hne hmatch
  have : r = (it, m.stop) := by
    have := hf
    simp only [find_longest_at] at this
    rw [hr] at this
    exact (Option.some.injEq _ _ ▸ this : r = (it, m.stop))
  rw [this] at hle
  exact hle

/-- Witness for C1: the spec example — phrases "good" and "good morning"
both verified; chunking "good morning friend" yields exactly the single
match for "good morning" and the theorem instantiates to it. -/
theorem chunk_reports_longest_match_witness :
    (chunk [⟨"2", "good morning", "ndewo", []⟩, ⟨"1", "good", "oma", []⟩]
        "good morning friend") =
      (["ndewo"], [⟨"2", "good morning", "ndewo", 0, 2, []⟩])
    ∧ 0 + (tokenize_en "good morning").length ≤ 2 :=
  ⟨by decide,
    chunk_reports_longest_match
      [⟨"2", "good morning", "ndewo", []⟩, ⟨"1", "good", "oma", []⟩]
      "good morning friend"
      ⟨"2", "good morning", "ndewo", 0, 2, []⟩
      ⟨"2", "good morning", "ndewo", []⟩
      (by decide) (by decide) (by decide) (by decide)⟩

/-- C5: a verified phrase with empty target is silent — it is recorded as
a match (consuming its tokens: the records are non-overlapping, the scan
resumes at its end) but contributes no element to the chunk sequence, and
every chunk element is a nonempty target. -/
theorem chunk_silent_phrases (items : List PhraseItem) (text : String) :
    (chunk items text).1 =
      ((chunk items text).2.filter (fun m => m.ika ≠ "")).map (fun m => m.ika)
    ∧ (∀ c ∈ (chunk items text).1, c ≠ "")
    ∧ List.Chain' (fun a b => a.stop ≤ b.start) (chunk items text).2 := by
  obtain ⟨hb, hchain, _, heq⟩ := chunk_matches_ordered_cover items text
  refine ⟨heq, ?_, hchain⟩
  intro c hc
  rw [heq] at hc
  obtain ⟨m, hmmem, hmc⟩ := List.mem_map.mp hc
  have := List.of_mem_filter hmmem
  simpa [hmc] using of_decide_eq_true this

/-- Witness for C5: the phrase "you know" has empty target; chunking
"you know hello" records its match but emits only the chunk of
"hello". -/
theorem chunk_silent_phrases_witness :
    (chunk [⟨"s", "you know", "", []⟩, ⟨"h", "hello", "x", []⟩] "you know hello") =
      (["x"], [⟨"s", "you know", "", 0, 2, []⟩, ⟨"h", "hello", "x", 2, 3, []⟩])
    ∧ (chunk [⟨"s", "you know", "", []⟩, ⟨"h", "hello", "x", []⟩] "you know hello").1 =
        (((chunk [⟨"s", "you know", "", []⟩, ⟨"h", "hello", "x", []⟩]
          "you know hello").2.filter (fun m => m.ika ≠ "")).map (fun m => m.ika)) :=
  ⟨by decide,
    (chunk_silent_phrases [⟨"s", "you know", "", []⟩, ⟨"h", "hello", "x", []⟩]
      "you know hello").1⟩

/-! ## `app/lexicon_service.py` — normalization, exact lookup, suggestions -/

/-- `text.strip()` with Python's whitespace class. -/
def stripWs (l : List Char) : List Char :=
  ((l.dropWhile isPySpace).reverse.dropWhile isPySpace).reverse

/-- The fancy-quote class of `_normalize` (lexicon_service.py line 18):
U+201C, U+201D, U+2018, U+2019, U+2032, U+2033. -/
def isFancyQuote (c : Char) : Bool :=
  c = '\u201c' || c = '\u201d' || c = '\u2018' || c = '\u2019' ||
  c = '\u2032' || c = '\u2033'

/-- `re.sub(r"\s+", " ", t)`: replace each maximal whitespace run with a
single space.  `inRun` records whether the previous character was part of
a whitespace run. -/
def collapseWsAux : Bool → List Char → List Char
  | _, [] => []
  | inRun, c :: cs =>
    if isPySpace c then
      if inRun then collapseWsAux true cs else ' ' :: collapseWsAux true cs
    else c :: collapseWsAux false cs

def collapseWs (l : List Char) : List Char := collapseWsAux false l

/-- `_normalize` (lexicon_service.py lines 14-20): strip, lowercase, map
fancy quotes to `'`, collapse internal whitespace, strip. -/
def normalizeText (s : String) : String :=
  if s = "" then ""
  else
    let t1 := (stripWs s.data).map Char.toLower
    let t2 := t1.map (fun c => if isFancyQuote c then '\'' else c)
    String.mk (stripWs (collapseWs t2))

/-- Maximal runs of characters satisfying `p`, with `cur` the current run
reversed (single pass, used for the whitespace `str.split()` and for the
regex token scans of the lexicon store). -/
def runsAux (p : Char → Bool) : List Char → List Char → List (List Char)
  | cur, [] => if cur.isEmpty then [] else [cur.reverse]
  | cur, c :: cs =>
    if p c then runsAux p (c :: cur) cs
    else if cur.isEmpty then runsAux p [] cs
    else cur.reverse :: runsAux p [] cs

def runsOf (p : Char → Bool) (l : List Char) : List (List Char) := runsAux p [] l

/-- Python `s.split()`: maximal nonempty runs of non-whitespace. -/
def splitWs (s : String) : List String :=
  (runsOf (fun c => !(isPySpace c)) s.data).map fun l => String.mk l

/-- First-occurrence de-duplication, as `list(dict.fromkeys(...))`. -/
def dedupFirstAux [DecidableEq α] : List α → List α → List α
  | _, [] => []
  | seen, a :: r =>
    if a ∈ seen then dedupFirstAux seen r else a :: dedupFirstAux (a :: seen) r

def dedupFirst [DecidableEq α] (l : List α) : List α := dedupFirstAux [] l

/-- A candidate record of `exact_en_lookup.json` (only the fields the
lookup reads, each possibly absent as with `dict.get`). -/
structure Cand where
  id : Option String
  domain : Option String
  ika : Option String
deriving DecidableEq, Repr

/-- One suggestion `{en, ika, id, domain}` (lexicon_service.py line 136). -/
structure Suggestion where
  en : String
  ika : Option String
  id : Option String
  domain : Option String
deriving DecidableEq, Repr

/-- The result value of `lookup_en_to_ika`, with all four keys present
(`candidates` and `suggestions` default to `[]` in the branches that omit
them). -/
structure LookupResult where
  found : Bool
  query : String
  candidates : List Cand
  suggestions : List Suggestion
deriving DecidableEq, Repr

/-- The in-memory state of `LexiconService` after `load()`: the
`exact_en` dict as an insertion-ordered association list and the sorted
key list `_en_keys_sorted`. -/
structure LexiconServiceState where
  exact_en : List (String × List Cand)
  en_keys_sorted : List String

/-- Build the state from the dict, sorting the keys as `load()` does
(`sorted(...)` embedded as the equivalent stable insertion sort on the
code-point order). -/
def LexiconServiceState.ofExact (ex : List (String × List Cand)) : LexiconServiceState :=
  ⟨ex, (ex.map Prod.fst).insertionSort (fun a b => a ≤ b)⟩

/-- `_token_overlap_score` (lexicon_service.py lines 23-25):
`len(query_tokens & key_tokens)` — the number of distinct key tokens that
also occur among the query tokens. -/
def tokenOverlapScore (queryToks keyToks : List String) : Nat :=
  ((dedupFirst keyToks).filter (fun t => t ∈ queryToks)).length

/-- The phase-1 condition (lexicon_service.py line 117):
`norm in key or key.startswith(norm) or norm.startswith(key)`. -/
def phase1Cond (norm key : String) : Bool :=
  listContainsSub norm.data key.data || norm.data.isPrefixOf key.data ||
    key.data.isPrefixOf norm.data

/-- The phase-1 collection loop (lexicon_service.py lines 115-120):
append matching keys, stop as soon as 15 are collected. -/
def phase1Scan (norm : String) : List String → List String → List String
  | [], acc => acc
  | k :: ks, acc =>
    let acc' := if phase1Cond norm k then acc ++ [k] else acc
    if 15 ≤ acc'.length then acc' else phase1Scan norm ks acc'

/-- The Python sort key `(-score, key)` as a relation: higher score first,
then key ascending. -/
def overlapRel (a b : Nat × String) : Prop :=
  b.1 < a.1 ∨ (a.1 = b.1 ∧ a.2 ≤ b.2)

instance : DecidableRel overlapRel := fun a b => by
  unfold overlapRel; infer_instance

/-- `LexiconService.lookup_en_to_ika` (lexicon_service.py lines 92-144).
`overlap.sort(key=lambda x: (-x[0], x[1]))` is a stable sort, embedded by
the stable `List.insertionSort` under `overlapRel`. -/
def lookup_en_to_ika (st : LexiconServiceState) (text : String) : LookupResult :=
  let norm := normalizeText text
  if norm = "" then ⟨false, "", [], []⟩
  else
    match st.exact_en.lookup norm with
    | some cands => ⟨true, norm, cands, []⟩
    | none =>
      let queryToks := splitWs norm
      let phase1Keys := phase1Scan norm st.en_keys_sorted []
      let overlap := st.en_keys_sorted.filterMap fun k =>
        if k ∈ phase1Keys then none
        else
          let score := tokenOverlapScore queryToks (splitWs k)
          if 0 < score then some (score, k) else none
      let overlapSorted := overlap.insertionSort overlapRel
      let suggestionKeys :=
        (dedupFirst (phase1Keys ++ (overlapSorted.take 10).map Prod.snd)).take 10
      let suggestions := suggestionKeys.filterMap fun k =>
        match ((st.exact_en.lookup k).getD []).head? with
        | some c => some ⟨k, c.ika, c.id, c.domain⟩
        | none => none
      ⟨false, norm, [], suggestions⟩

/-- The suggestion-key pipeline exactly as the spec words it (phase 1 as a
filtered, capped scan of the sorted keys; phase 2 as overlap scoring of
the not-yet-selected keys, positive scores sorted by score descending then
key ascending, top 10; merge, de-duplicate keeping first occurrences,
truncate to 10).  Stated from the spec, to be proved equal to the code
path above. -/
def specSuggestionKeys (st : LexiconServiceState) (norm : String) : List String :=
  let phase1 := (st.en_keys_sorted.filter (fun k => phase1Cond norm k)).take 15
  let scored := ((st.en_keys_sorted.filter (fun k => !(k ∈ phase1 : Bool))).map
    (fun k => (tokenOverlapScore (splitWs norm) (splitWs k), k))).filter
      (fun p => 0 < p.1)
  let phase2 := ((scored.insertionSort overlapRel).take 10).map Prod.snd
  (dedupFirst (phase1 ++ phase2)).take 10

/-- The representative suggestion attached to a retained key
(lexicon_service.py lines 133-137). -/
def suggestionFor (st : LexiconServiceState) (k : String) : Option Suggestion :=
  match ((st.exact_en.lookup k).getD []).head? with
  | some c => some ⟨k, c.ika, c.id, c.domain⟩
  | none => none

theorem phase1Scan_eq (norm : String) :
    ∀ (keys acc : List String), acc.length < 15 →
      phase1Scan norm keys acc =
        acc ++ (keys.filter (fun k => phase1Cond norm k)).take (15 - acc.length) := by
  intro keys
  induction keys with
  | nil => intro acc _; simp [phase1Scan]
  | cons k ks ih =>
    intro acc hacc
    by_cases hc : phase1Cond norm k
    · simp only [phase1Scan, hc, if_true, List.filter_cons_of_pos]
      by_cases hfull : 15 ≤ (acc ++ [k]).length
      · have hlen : acc.length = 14 := by
          simp only [List.length_append, List.length_singleton] at hfull
          omega
        simp only [if_pos hfull, hlen]
        have : (15 : Nat) - 14 = 1 := by omega
        rw [this]
        simp [List.take_cons]
      · have hlt : (acc ++ [k]).length < 15 := by omega
        simp only [if_neg hfull, ih (acc ++ [k]) hlt]
        have hlen : (acc ++ [k]).length = acc.length + 1 := by
          simp
        rw [hlen]
        have hsub : 15 - acc.length = (15 - (acc.length + 1)) + 1 := by omega
        rw [hsub]
        simp [List.take_cons, List.append_assoc]
    · have hne2 : ¬ 15 ≤ acc.length := by omega
      have hstep : phase1Scan norm (k :: ks) acc = phase1Scan norm ks acc := by
        simp [phase1Scan, hc, hne2]
      rw [hstep, ih acc hacc, List.filter_cons_of_neg]
      simpa using hc

theorem overlap_filterMap_eq (keys sel : List String) (f : String → Nat) :
    (keys.filterMap fun k =>
      if k ∈ sel then none
      else if 0 < f k then some (f k, k) else none) =
    ((keys.filter (fun k => !(k ∈ sel : Bool))).map (fun k => (f k, k))).filter
      (fun p => 0 < p.1) := by
  induction keys with
  | nil => simp
  | cons k ks ih =>
    by_cases hm : k ∈ sel
    · simp [List.filterMap_cons, hm, ih]
    · by_cases hs : 0 < f k
      · simp [List.filterMap_cons, hm, hs, ih]
      · simp [List.filterMap_cons, hm, hs, ih]

/-- C4: on every miss with a nonempty normalized query, the suggestion
list is built exactly as the spec's two-phase pipeline describes
(phase 1: up to 15 containment/prefix keys in sorted-key order; phase 2:
positive token-overlap scores sorted by score descending then key
ascending, top 10; merge, de-duplicate keeping first occurrences,
truncate to 10; attach one representative per key) — and hence has at
most 10 elements. -/
theorem lookup_suggestions_spec (st : LexiconServiceState) (text : String)
    (hne : normalizeText text ≠ "")
    (hmiss : st.exact_en.lookup (normalizeText text) = none) :
    (lookup_en_to_ika st text).suggestions =
      (specSuggestionKeys st (normalizeText text)).filterMap (suggestionFor st)
    ∧ (lookup_en_to_ika st text).suggestions.length ≤ 10 := by
  have hkeys : phase1Scan (normalizeText text) st.en_keys_sorted [] =
      (st.en_keys_sorted.filter (fun k => phase1Cond (normalizeText text) k)).take 15 := by
    have := phase1Scan_eq (normalizeText text) st.en_keys_sorted [] (by simp)
    simpa using this
  have hmain : (lookup_en_to_ika st text).suggestions =
      (specSuggestionKeys st (normalizeText text)).filterMap (suggestionFor st) := by
    simp only [lookup_en_to_ika, if_neg hne, hmiss, specSuggestionKeys,
      suggestionFor, hkeys, overlap_filterMap_eq]
    rfl
  refine ⟨hmain, ?_⟩
  rw [hmain]
  calc ((specSuggestionKeys st (normalizeText text)).filterMap (suggestionFor st)).length
      ≤ (specSuggestionKeys st (normalizeText text)).length :=
        List.length_filterMap_le _ _
    _ ≤ 10 := by
        simp only [specSuggestionKeys]
        exact le_trans (List.length_take_le _ _) (le_refl _)

/-- Witness for C4 at a concrete service state and miss query. -/
theorem lookup_suggestions_spec_witness :
    (lookup_en_to_ika
      (LexiconServiceState.ofExact
        [("good afternoon", [⟨some "1", some "greeting", some "ka chifu"⟩]),
         ("good morning", [⟨some "2", some "greeting", some "ndewo"⟩]),
         ("hello", [⟨some "3", some "greeting", some "nnoo"⟩])])
      "good evening").suggestions.length ≤ 10 :=
  (lookup_suggestions_spec
    (LexiconServiceState.ofExact
      [("good afternoon", [⟨some "1", some "greeting", some "ka chifu"⟩]),
       ("good morning", [⟨some "2", some "greeting", some "ndewo"⟩]),
       ("hello", [⟨some "3", some "greeting", some "nnoo"⟩])])
    "good evening" (by decide) (by decide)).2

/-- C8: an empty or whitespace-only query is a miss with empty candidate
and suggestion lists (and, the embedding being a total function, no
exception). -/
theorem lookup_blank_query_is_miss (st : LexiconServiceState) (text : String)
    (hblank : text.data.all isPySpace) :
    lookup_en_to_ika st text = ⟨false, "", [], []⟩ := by
  have hnorm : normalizeText text = "" := by
    by_cases h0 : text = ""
    · simp [normalizeText, h0]
    · have hdrop : text.data.dropWhile isPySpace = [] :=
        List.dropWhile_eq_nil_iff.mpr (by
          intro x hx
          exact List.all_eq_true.mp hblank x hx)
      simp [normalizeText, h0, stripWs, hdrop, collapseWs, collapseWsAux]
  simp [lookup_en_to_ika, hnorm]

/-- Witness for C8 on a whitespace-only query. -/
theorem lookup_blank_query_is_miss_witness :
    lookup_en_to_ika
      (LexiconServiceState.ofExact
        [("hello", [⟨some "3", some "greeting", some "nnoo"⟩])])
      "  \t " = ⟨false, "", [], []⟩ :=
  lookup_blank_query_is_miss
    (LexiconServiceState.ofExact
      [("hello", [⟨some "3", some "greeting", some "nnoo"⟩])])
    "  \t " (by decide)

/-! ## `app/lexicon_store.py` — entries, indexes, language detection -/

/-- `str.lower()` (ASCII model). -/
def lowerStr (s : String) : String := String.mk (s.data.map Char.toLower)

/-- `str.strip()` as a `String` operation. -/
def stripStr (s : String) : String := String.mk (stripWs s.data)

/-- `LexEntry` (lexicon_store.py lines 16-20). -/
structure LexEntry where
  domain : String
  en : String
  ika : String
deriving DecidableEq, Repr

/-- `LexiconStore` after `load()`: the entry list; all four indexes are
derived views of it (the build loop at lexicon_store.py lines 68-73
appends every entry to its buckets in entry order). -/
structure LexiconStore where
  entries : List LexEntry
deriving DecidableEq, Repr

/-- The character class of `TOKEN_RE` (lexicon_store.py line 13):
`[A-Za-zÀ-ÖØ-öø-ÿỊịỌọỤụẸẹŃńŊŋʼ''-]`. -/
def isIkaTokenChar (c : Char) : Bool :=
  ('A' ≤ c && c ≤ 'Z') || ('a' ≤ c && c ≤ 'z') ||
  (0xC0 ≤ c.val && c.val ≤ 0xD6) || (0xD8 ≤ c.val && c.val ≤ 0xF6) ||
  (0xF8 ≤ c.val && c.val ≤ 0xFF) ||
  c.val = 0x1ECA || c.val = 0x1ECB || c.val = 0x1ECC || c.val = 0x1ECD ||
  c.val = 0x1EE4 || c.val = 0x1EE5 || c.val = 0x1EB8 || c.val = 0x1EB9 ||
  c.val = 0x143 || c.val = 0x144 || c.val = 0x14A || c.val = 0x14B ||
  c.val = 0x2BC || c = '\'' || c = '-'

/-- `TOKEN_RE.findall(s)`: maximal runs of token characters. -/
def ikaTokens (s : String) : List String :=
  (runsOf isIkaTokenChar s.data).map fun l => String.mk l

/-- Membership in `ika_token_set` (built at lexicon_store.py lines 72-73:
every token of every entry target, lower-cased). -/
def inIkaTokenSet (store : LexiconStore) (t : String) : Bool :=
  store.entries.any fun e => (ikaTokens e.ika).any fun w => lowerStr w = t

/-- The lower-cased token list of `is_ika_text`
(lexicon_store.py line 76). -/
def ikaTextToks (text : String) : List String :=
  (ikaTokens text).map lowerStr

/-- The hit count of `is_ika_text` (lexicon_store.py line 79). -/
def ikaTextHits (store : LexiconStore) (text : String) : Nat :=
  ((ikaTextToks text).filter fun t => inIkaTokenSet store t).length

/-- `is_ika_text` (lexicon_store.py lines 75-80).  The float comparison
`hit / max(1, len(toks)) >= 0.35` is modelled exactly over the rationals
with denominators cleared: `35 * max 1 len ≤ 100 * hit`. -/
def is_ika_text (store : LexiconStore) (text : String) : Bool :=
  let toks := ikaTextToks text
  if toks.isEmpty then false
  else decide (35 * (max 1 toks.length) ≤ 100 * ikaTextHits store text)

/-- C6: language detection classifies a text as target-language exactly
when its token list is nonempty and the fraction of tokens found in the
target token set is at least `35/100`; an empty token sequence is never
classified as target-language. -/
theorem is_ika_text_iff_threshold (store : LexiconStore) (text : String) :
    is_ika_text store text = true ↔
      (ikaTextToks text ≠ [] ∧
        (35 : ℚ) / 100 ≤
          (ikaTextHits store text : ℚ) / ((ikaTextToks text).length : ℚ)) := by
  by_cases hemp : (ikaTextToks text).isEmpty
  · have h0 : ikaTextToks text = [] := List.isEmpty_iff.mp hemp
    simp [is_ika_text, hemp, h0]
  · have h0 : ikaTextToks text ≠ [] := by
      simpa [List.isEmpty_iff] using hemp
    have hlen : 0 < (ikaTextToks text).length := List.length_pos.mpr h0
    have hmax : max 1 (ikaTextToks text).length = (ikaTextToks text).length := by
      omega
    simp only [is_ika_text, hemp, Bool.false_eq_true, if_false, decide_eq_true_eq,
      hmax, ne_eq, h0, not_false_eq_true, true_and]
    rw [div_le_div_iff₀ (by norm_num) (by exact_mod_cast hlen)]
    constructor
    · intro h
      have : (35 * (ikaTextToks text).length : ℚ) ≤ (100 * ikaTextHits store text : ℚ) := by
        exact_mod_cast h
      calc (35 : ℚ) * (ikaTextToks text).length ≤ 100 * ikaTextHits store text := this
        _ = (ikaTextHits store text : ℚ) * 100 := by ring
    · intro h
      have : (35 * (ikaTextToks text).length : ℚ) ≤ (100 * ikaTextHits store text : ℚ) := by
        calc (35 : ℚ) * (ikaTextToks text).length ≤ (ikaTextHits store text : ℚ) * 100 := h
          _ = 100 * ikaTextHits store text := by ring
      exact_mod_cast this

/-- Witness for C6: with target token set `{"ka"}`, a 20-token text with
7 hits (exactly 35%) is classified as target-language; a 50-token text
with 17 hits (34%) is not. -/
theorem is_ika_text_iff_threshold_witness :
    is_ika_text ⟨[⟨"greeting", "come", "ka"⟩]⟩
      "ka ka ka ka ka ka ka zz zz zz zz zz zz zz zz zz zz zz zz zz" = true
    ∧ is_ika_text ⟨[⟨"greeting", "come", "ka"⟩]⟩
      ("ka ka ka ka ka ka ka ka ka ka ka ka ka ka ka ka ka " ++
        "zz zz zz zz zz zz zz zz zz zz zz zz zz zz zz zz zz " ++
        "zz zz zz zz zz zz zz zz zz zz zz zz zz zz zz zz") = false := by
  constructor
  · apply (is_ika_text_iff_threshold ⟨[⟨"greeting", "come", "ka"⟩]⟩ _).mpr
    constructor
    · decide
    · have h1 : ikaTextHits ⟨[⟨"greeting", "come", "ka"⟩]⟩
          "ka ka ka ka ka ka ka zz zz zz zz zz zz zz zz zz zz zz zz zz" = 7 := by decide
      have h2 : (ikaTextToks
          "ka ka ka ka ka ka ka zz zz zz zz zz zz zz zz zz zz zz zz zz").length = 20 := by decide
      rw [h1, h2]
      norm_num
  · decide

/-! ## `app/dataset_generator.py` — domain-priority resolution -/

/-- The priority test of `translate_en_to_ika_sentence`
(dataset_generator.py lines 33-37): domain starts with `"sentence."` or
equals `"greeting"`. -/
def isPriorityDomain (e : LexEntry) : Bool :=
  "sentence.".data.isPrefixOf e.domain.data || e.domain = "greeting"

/-- The Python sort key (`0` for priority entries, `1` otherwise). -/
def tierOf (e : LexEntry) : Nat := if isPriorityDomain e then 0 else 1

def tierLe (a b : LexEntry) : Prop := tierOf a ≤ tierOf b

instance : DecidableRel tierLe := fun a b => by unfold tierLe; infer_instance

/-- `en_to_ika[key]` (built at lexicon_store.py line 70): all entries
whose lower-cased source text equals the key, in entry order. -/
def en_to_ika (store : LexiconStore) (key : String) : List LexEntry :=
  store.entries.filter fun e => lowerStr e.en = key

/-- `by_domain[d]` (built at lexicon_store.py line 69). -/
def by_domain (store : LexiconStore) (d : String) : List LexEntry :=
  store.entries.filter fun e => e.domain = d

/-- `translate_en_to_ika_sentence` (dataset_generator.py lines 23-50).
`sorted(hits, key=...)` is Python's stable sort, embedded by the stable
`List.insertionSort` under `tierLe`; the `pick` calls of the no-match
branch draw their `random.choice` seeds from `seeds`. -/
def translate_en_to_ika_sentence (store : LexiconStore) (seeds : Nat → Nat)
    (english : String) : String :=
  let eng := stripStr english
  let hits := en_to_ika store (lowerStr eng)
  if hits.isEmpty then
    let greeting := by_domain store "greeting"
    let svo := by_domain store "sentence.svo"
    let expr := by_domain store "sentence.expression"
    let synonym := by_domain store "synonym_general"
    let base := ((((pickIdx (seeds 0) expr).orElse fun _ => pickIdx (seeds 1) svo).orElse
      fun _ => pickIdx (seeds 2) greeting).orElse fun _ => pickIdx (seeds 3) synonym)
    let base := match base with
      | none => pickIdx (seeds 4) store.entries
      | some b => some b
    match base with
    | some b => b.ika
    | none => ""
  else ((hits.insertionSort tierLe).headD ⟨"", "", ""⟩).ika

/-- Inserting `a` between a block it does not go before and a block whose
head it goes before. -/
theorem orderedInsert_append_block (r : LexEntry → LexEntry → Prop) [DecidableRel r]
    (a : LexEntry) :
    ∀ (A B : List LexEntry), (∀ x ∈ A, ¬ r a x) →
      (∀ y, B.head? = some y → r a y) →
      (A ++ B).orderedInsert r a = A ++ a :: B := by
  intro A
  induction A with
  | nil =>
    intro B _ hB
    cases B with
    | nil => simp [List.orderedInsert]
    | cons y ys => simp [List.orderedInsert, hB y rfl]
  | cons x xs ih =>
    intro B hA hB
    have hax : ¬ r a x := hA x (List.mem_cons_self x xs)
    simp only [List.cons_append, List.orderedInsert, if_neg hax, List.append_eq]
    rw [ih B (fun z hz => hA z (List.mem_cons_of_mem x hz)) hB]

/-- A stable sort by the two-valued tier key is exactly the stable
partition: priority entries first, original order preserved inside each
tier. -/
theorem insertionSort_tier_partition (l : List LexEntry) :
    l.insertionSort tierLe =
      l.filter (fun e => isPriorityDomain e) ++
        l.filter (fun e => !(isPriorityDomain e)) := by
  induction l with
  | nil => simp
  | cons a l ih =>
    simp only [List.insertionSort, ih]
    by_cases hp : isPriorityDomain a
    · have hfront : ∀ L : List LexEntry,
          L.orderedInsert tierLe a = a :: L := by
        intro L
        cases L with
        | nil => simp [List.orderedInsert]
        | cons y ys =>
          have : tierLe a y := by
            unfold tierLe tierOf
            simp [hp]
          simp [List.orderedInsert, this]
      rw [hfront]
      simp [List.filter_cons, hp]
    · rw [orderedInsert_append_block tierLe a _ _
        (fun x hx => by
          have hxp : isPriorityDomain x := by
            have := List.of_mem_filter hx
            simpa using this
          unfold tierLe tierOf
          simp [hp, hxp])
        (fun y hy => by
          have hymem : y ∈ l.filter (fun e => !(isPriorityDomain e)) :=
            List.mem_of_mem_head? hy
          have hyp : ¬ isPriorityDomain y := by
            have := List.of_mem_filter hymem
            simpa using this
          unfold tierLe tierOf
          simp [hp, hyp])]
      simp [List.filter_cons, hp]

/-- C7: when a source key has hits, the single-best-answer resolution
returns the target text of the head of the stable partition of the hits
by priority tier — entries whose domain starts with `"sentence."` or
equals `"greeting"` come first, insertion order preserved within each
tier. -/
theorem translate_domain_priority (store : LexiconStore) (seeds : Nat → Nat)
    (english : String)
    (hhits : en_to_ika store (lowerStr (stripStr english)) ≠ []) :
    (en_to_ika store (lowerStr (stripStr english))).insertionSort tierLe =
      (en_to_ika store (lowerStr (stripStr english))).filter
          (fun e => isPriorityDomain e) ++
        (en_to_ika store (lowerStr (stripStr english))).filter
          (fun e => !(isPriorityDomain e))
    ∧ translate_en_to_ika_sentence store seeds english =
        (((en_to_ika store (lowerStr (stripStr english))).filter
            (fun e => isPriorityDomain e) ++
          (en_to_ika store (lowerStr (stripStr english))).filter
            (fun e => !(isPriorityDomain e))).headD ⟨"", "", ""⟩).ika := by
  refine ⟨insertionSort_tier_partition _, ?_⟩
  have hemp : (en_to_ika store (lowerStr (stripStr english))).isEmpty = false := by
    simpa [List.isEmpty_iff] using hhits
  simp only [translate_en_to_ika_sentence, hemp, Bool.false_eq_true, if_false,
    insertionSort_tier_partition]

/-- Witness for C7: the spec example — source `"run"` mapped to domains
`["general", "sentence.svo"]`; the `sentence.svo` entry is selected. -/
theorem translate_domain_priority_witness :
    translate_en_to_ika_sentence
      ⟨[⟨"general", "run", "gba1"⟩, ⟨"sentence.svo", "run", "gba2"⟩]⟩
      (fun _ => 0) "run" = "gba2" := by
  have h := (translate_domain_priority
    ⟨[⟨"general", "run", "gba1"⟩, ⟨"sentence.svo", "run", "gba2"⟩]⟩
    (fun _ => 0) "run" (by decide)).2
  rw [h]
  decide

/-! ## `app/slot_filler.py` — closed classes and slot filling -/

/-- A pronoun/connector table row (`{english, ika}` with `dict.get`
defaults of `""`). -/
structure PronEntry where
  english : String
  ika : String
deriving DecidableEq, Repr

/-- The closed-class state of `SlotFiller` (`pronouns.json` keys
`subject_pronouns`/`object_pronouns`, `connectors.json` key
`connectors`; an absent key is the empty list). -/
structure SlotFillerState where
  subject_pronouns : List PronEntry
  object_pronouns : List PronEntry
  connectors : List PronEntry
deriving Repr

/-- A lexicon-entry dict, restricted to the fields the engine reads
(`doc_id`, `source_text`, `target_text`, `pos`, `source`; a missing
string field is `""`, a missing `doc_id` is `none`). -/
structure Filled where
  doc_id : Option String
  source_text : String
  target_text : String
  pos : String
  source : String
deriving DecidableEq, Repr

/-- The Firestore-backed `LexiconRepository`, an external collaborator,
modelled by its three query functions as read by `fill_slot` and the
generator (`find_by_pos pos domain limit`, `find_by_domain domain limit`,
`get_all`). -/
structure LexiconRepoModel where
  find_by_pos : String → Option String → Nat → List Filled
  find_by_domain : String → Nat → List Filled
  get_all : List Filled

/-- Slot constraints dict (only `pos` is read, via `.get("pos")`). -/
structure SlotConstraints where
  pos : Option String
deriving DecidableEq, Repr

/-- `_SUBJECT_SLOTS` (slot_filler.py line 118). -/
def SUBJECT_SLOTS : List String := ["Subject", "SUBJ"]

/-- `_OBJECT_SLOTS` (slot_filler.py line 119). -/
def OBJECT_SLOTS : List String := ["Object", "OBJ_OR_COMP", "OBJ_OR_LOC"]

/-- `_get_pronoun_for_slot` (slot_filler.py lines 121-132); the
`random.choice` guard and the trailing `return None` coincide with
`pickIdx` on a possibly-empty list. -/
def get_pronoun_for_slot (sf : SlotFillerState) (r : Nat) (slot_name : String) :
    Option PronEntry :=
  if slot_name ∈ SUBJECT_SLOTS then pickIdx r sf.subject_pronouns
  else if slot_name ∈ OBJECT_SLOTS then pickIdx r sf.object_pronouns
  else none

/-- `_get_connector` (slot_filler.py lines 134-139). -/
def get_connector (sf : SlotFillerState) (r : Nat) : Option PronEntry :=
  pickIdx r sf.connectors

/-- `_infer_pos_from_slot_name` (slot_filler.py lines 141-156). -/
def infer_pos_from_slot_name (slot_name : String) : Option String :=
  let slot_lower := lowerStr slot_name
  if listContainsSub "verb".data slot_lower.data ||
      slot_name = "Verb" || slot_name = "VERB" then some "verb"
  else if slot_name ∈ ["Subject", "Object", "Noun", "SUBJ", "OBJ_OR_COMP",
      "OBJ_OR_LOC", "NP"] then some "noun"
  else if listContainsSub "noun".data slot_lower.data ||
      listContainsSub "np".data slot_lower.data then some "noun"
  else if listContainsSub "adj".data slot_lower.data ||
      slot_name = "Adjective" then some "adjective"
  else if listContainsSub "adv".data slot_lower.data ||
      slot_name = "Adverb" then some "adverb"
  else if slot_name ∈ ["LOC", "PHRASE", "LEXEME_OR_PHRASE"] then some "noun"
  else none

/-- `fill_slot` (slot_filler.py lines 55-115).  Each call performs at most
one `random.choice`, drawn with seed `r`.  Python truthiness of the
optional `pos`/`domain` strings (`if pos:` / `if domain:`) is the
"present and nonempty" test. -/
def fill_slot (sf : SlotFillerState) (repo : LexiconRepoModel) (r : Nat)
    (slot_name : String) (slot_constraints : Option SlotConstraints)
    (domain : Option String) : Option Filled :=
  let pronounStep : Option Filled :=
    if slot_name ∈ ["Subject", "Object"] then
      match get_pronoun_for_slot sf r slot_name with
      | some p => some ⟨none, p.english, p.ika, "pronoun", "pronouns.json"⟩
      | none => none
    else none
  match pronounStep with
  | some f => some f
  | none =>
    let connectorStep : Option Filled :=
      if slot_name = "Connector" then
        match get_connector sf r with
        | some p => some ⟨none, p.english, p.ika, "connector", "connectors.json"⟩
        | none => none
      else none
    match connectorStep with
    | some f => some f
    | none =>
      let pos0 : Option String := match slot_constraints with
        | some c => c.pos
        | none => none
      let pos : Option String := match pos0 with
        | some s => if s = "" then infer_pos_from_slot_name slot_name else some s
        | none => infer_pos_from_slot_name slot_name
      let byPos : Option Filled := match pos with
        | some p =>
          if p = "" then none
          else
            let candidates := repo.find_by_pos p domain 20
            if candidates.isEmpty then none else pickIdx r candidates
        | none => none
      match byPos with
      | some f => some f
      | none =>
        match domain with
        | some d =>
          if d = "" then none
          else
            let candidates := repo.find_by_domain d 20
            if candidates.isEmpty then none else pickIdx r candidates
        | none => none

/-- C3 (code bug exhibited): for the slot name `"SUBJ"` — which the
code's own `_SUBJECT_SLOTS` declares a subject role — with a nonempty
subject pronoun list, `fill_slot` does NOT return a pronoun: the gate at
slot_filler.py line 73 tests only `["Subject", "Object"]`, so `"SUBJ"`
falls through to the open-class lexicon lookup and returns the noun that
`find_by_pos "noun"` offers, while the identical call with `"Subject"`
returns the pronoun immediately. -/
theorem fill_slot_SUBJ_bypasses_pronouns :
    fill_slot ⟨[⟨"i", "mu"⟩], [⟨"me", "mu"⟩], []⟩
      ⟨fun p _ _ => if p = "noun" then [⟨some "n1", "farm", "ugbo", "noun", "lexicon"⟩] else [],
       fun _ _ => [], []⟩
      0 "SUBJ" none none = some ⟨some "n1", "farm", "ugbo", "noun", "lexicon"⟩
    ∧ fill_slot ⟨[⟨"i", "mu"⟩], [⟨"me", "mu"⟩], []⟩
      ⟨fun p _ _ => if p = "noun" then [⟨some "n1", "farm", "ugbo", "noun", "lexicon"⟩] else [],
       fun _ _ => [], []⟩
      0 "Subject" none none = some ⟨none, "i", "mu", "pronoun", "pronouns.json"⟩
    ∧ "SUBJ" ∈ SUBJECT_SLOTS
    ∧ ([⟨"i", "mu"⟩] : List PronEntry) ≠ [] := by
  refine ⟨rfl, rfl, by decide, by decide⟩

/-! ## `app/generator.py` — generation result and trace -/

/-- One trace record of `lexicon_entries_used`
(generator.py lines 151-156). -/
structure TraceEntry where
  doc_id : Option String
  source : String
  target : String
  slot : String
deriving DecidableEq, Repr

/-- One structure item produced by the templates engine
(`{"section"?, "pattern_id", "slots"}`, slots as an insertion-ordered
dict of filled entries). -/
structure StructItem where
  sect : Option String
  pattern_id : Option String
  slots : List (String × Filled)
deriving Repr

/-- A grammar pattern dict as far as the generator reads it (`if pattern:`
truthiness of the non-None dict returned by `get_pattern`). -/
structure GPattern where
  pattern_id : String
  slots : List String
deriving DecidableEq, Repr

/-- The collaborators of `Generator.generate`: the lexicon repository,
`PatternRepository.get_pattern`, and the three structure builders of
`TemplatesEngine`. -/
structure GeneratorDeps where
  repo : LexiconRepoModel
  get_pattern : String → Option GPattern
  gen_poem : String → String → String → List StructItem
  gen_story : String → String → String → List StructItem
  gen_lecture : String → String → String → List StructItem

/-- The generation result `{"text", "meta": {pattern_ids,
lexicon_entries}}` (the static echo fields `kind/topic/tone/length` are
omitted). -/
structure GenResult where
  text : String
  pattern_ids : List String
  lexicon_entries : List TraceEntry
deriving DecidableEq, Repr

/-- The nonempty targets of an item's slots, in slot order
(generator.py lines 148-150). -/
def sentence_parts (slots : List (String × Filled)) : List String :=
  (slots.filter (fun p => p.2.target_text ≠ "")).map fun p => p.2.target_text

/-- The trace records appended for an item's slots — one per nonempty
target, in the same order (generator.py lines 151-156). -/
def item_traces (slots : List (String × Filled)) : List TraceEntry :=
  (slots.filter (fun p => p.2.target_text ≠ "")).map fun p =>
    ⟨p.2.doc_id, p.2.source_text, p.2.target_text, p.1⟩

/-- One iteration of the structure loop of `generate`
(generator.py lines 136-160), over the accumulator
`(ika_sentences, pattern_ids_used, lexicon_entries_used)`.  The pattern
id is recorded before the pattern is looked up and before any slot
contributes text. -/
def processItem (deps : GeneratorDeps)
    (acc : List String × List String × List TraceEntry) (item : StructItem) :
    List String × List String × List TraceEntry :=
  match item.pattern_id with
  | none => acc
  | some pid =>
    if pid = "" then acc
    else
      let pids := acc.2.1 ++ [pid]
      match deps.get_pattern pid with
      | none => (acc.1, pids, acc.2.2)
      | some _ =>
        let parts := sentence_parts item.slots
        (if parts.isEmpty then acc.1 else acc.1 ++ [joinSpace parts],
          pids, acc.2.2 ++ item_traces item.slots)

/-- `_fallback_generation` (generator.py lines 181-189). -/
def fallback_generation (repo : LexiconRepoModel) (_topic _kind : String) : String :=
  let entries := repo.find_by_domain "general" 5
  let entries := if entries.isEmpty then repo.get_all.take 5 else entries
  let words := (entries.filter (fun e => e.target_text ≠ "")).map
    fun e => e.target_text
  if words.isEmpty then "" else joinSpace words

/-- The body of `generate` after the structure has been produced
(generator.py lines 131-179). -/
def generateFrom (deps : GeneratorDeps) (items : List StructItem)
    (topic kind : String) : GenResult :=
  let res := items.foldl (processItem deps) ([], [], [])
  let ika_text := joinSpace res.1
  let ika_text := if ika_text = "" then fallback_generation deps.repo topic kind
    else ika_text
  ⟨ika_text, res.2.1, res.2.2⟩

/-- `Generator.generate` (generator.py lines 95-179); an unknown kind
raises `ValueError`, modelled as `Except.error`. -/
def generate (deps : GeneratorDeps) (kind topic tone length : String) :
    Except String GenResult :=
  if kind = "poem" then
    .ok (generateFrom deps (deps.gen_poem topic tone length) topic kind)
  else if kind = "story" then
    .ok (generateFrom deps (deps.gen_story topic tone length) topic kind)
  else if kind = "lecture" then
    .ok (generateFrom deps (deps.gen_lecture topic tone length) topic kind)
  else .error ("Unknown generation kind: " ++ kind)

theorem joinSpace_ne_empty :
    ∀ (l : List String), l ≠ [] → (∀ x ∈ l, x ≠ "") → joinSpace l ≠ "" := by
  intro l
  match l with
  | [] => intro h _; exact absurd rfl h
  | [x] =>
    intro _ hall
    simpa [joinSpace] using hall x (List.mem_cons_self x [])
  | x :: y :: ys =>
    intro _ _ hc
    have hlen := congrArg String.length hc
    simp only [joinSpace, String.length_append] at hlen
    have hsp : (" " : String).length = 1 := rfl
    have hemp : ("" : String).length = 0 := rfl
    rw [hsp, hemp] at hlen
    omega

theorem joinSpace_append_ne :
    ∀ (a b : List String), a ≠ [] → b ≠ [] →
      joinSpace (a ++ b) = joinSpace a ++ " " ++ joinSpace b := by
  intro a
  induction a with
  | nil => intro b ha _; exact absurd rfl ha
  | cons x xs ih =>
    intro b _ hb
    cases xs with
    | nil =>
      cases b with
      | nil => exact absurd rfl hb
      | cons y ys => simp [joinSpace]
    | cons z zs =>
      have h1 : (x :: z :: zs) ++ b = x :: ((z :: zs) ++ b) := by simp
      rw [h1]
      have h2 : joinSpace (x :: ((z :: zs) ++ b)) =
          x ++ " " ++ joinSpace ((z :: zs) ++ b) := by
        cases hzz : (z :: zs) ++ b with
        | nil => simp at hzz
        | cons w ws => rfl
      rw [h2, ih b (by simp) hb]
      have h4 : joinSpace (x :: z :: zs) = x ++ " " ++ joinSpace (z :: zs) := rfl
      rw [h4]
      simp [String.append_assoc]

/-- The targets of an item's trace records are exactly its sentence
parts. -/
theorem item_traces_targets (slots : List (String × Filled)) :
    (item_traces slots).map (fun t => t.target) = sentence_parts slots := by
  simp only [item_traces, sentence_parts, List.map_map]
  rfl

/-- One step of the structure loop preserves the invariant relating
sentences and trace records. -/
theorem processItem_inv (deps : GeneratorDeps)
    (acc : List String × List String × List TraceEntry) (item : StructItem)
    (h1 : joinSpace acc.1 = joinSpace (acc.2.2.map (fun t => t.target)))
    (h2 : acc.1 = [] ↔ acc.2.2 = [])
    (h3 : ∀ s ∈ acc.1, s ≠ "") :
    (joinSpace (processItem deps acc item).1 =
      joinSpace ((processItem deps acc item).2.2.map (fun t => t.target)))
    ∧ ((processItem deps acc item).1 = [] ↔ (processItem deps acc item).2.2 = [])
    ∧ (∀ s ∈ (processItem deps acc item).1, s ≠ "") := by
  cases hpid : item.pattern_id with
  | none =>
    refine ⟨?_, ?_, ?_⟩ <;> simp only [processItem, hpid]
    · exact h1
    · exact h2
    · exact h3
  | some pid =>
    by_cases hpe : pid = ""
    · refine ⟨?_, ?_, ?_⟩ <;> simp only [processItem, hpid, hpe, if_pos rfl]
      · exact h1
      · exact h2
      · exact h3
    · cases hpat : deps.get_pattern pid with
      | none =>
        refine ⟨?_, ?_, ?_⟩ <;> simp only [processItem, hpid, if_neg hpe, hpat]
        · exact h1
        · exact h2
        · exact h3
      | some g =>
        by_cases hparts : (sentence_parts item.slots).isEmpty
        · have hpnil : sentence_parts item.slots = [] := List.isEmpty_iff.mp hparts
          have htr : item_traces item.slots = [] := by
            have := item_traces_targets item.slots
            rw [hpnil] at this
            exact List.map_eq_nil_iff.mp this
          refine ⟨?_, ?_, ?_⟩ <;>
            simp only [processItem, hpid, if_neg hpe, hpat, hparts, if_pos rfl,
              htr, List.append_nil]
          · exact h1
          · exact h2
          · exact h3
        · have hpnnil : sentence_parts item.slots ≠ [] := by
            simpa [List.isEmpty_iff] using hparts
          have htrn : item_traces item.slots ≠ [] := by
            intro hcc
            have := item_traces_targets item.slots
            rw [hcc] at this
            exact hpnnil (by simpa using this.symm)
          have hparts_all : ∀ x ∈ sentence_parts item.slots, x ≠ "" := by
            intro x hx
            simp only [sentence_parts, List.mem_map] at hx
            obtain ⟨p, hp, hpx⟩ := hx
            have := List.of_mem_filter hp
            rw [← hpx]
            simpa using this
          refine ⟨?_, ?_, ?_⟩ <;>
            simp only [processItem, hpid, if_neg hpe, hpat, hparts,
              Bool.false_eq_true, if_false]
          · by_cases hacc : acc.1 = []
            · have hacct : acc.2.2 = [] := h2.mp hacc
              simp [hacc, hacct, item_traces_targets, joinSpace]
            · have hacct : acc.2.2 ≠ [] := fun hcc => hacc (h2.mpr hcc)
              rw [joinSpace_append_ne acc.1 [joinSpace (sentence_parts item.slots)]
                hacc (by simp)]
              rw [List.map_append,
                joinSpace_append_ne (acc.2.2.map (fun t => t.target))
                  ((item_traces item.slots).map (fun t => t.target))
                  (by simpa using hacct) (by simpa using htrn)]
              rw [item_traces_targets, h1]
              simp [joinSpace]
          · constructor
            · intro hcc
              exact absurd hcc (by simp)
            · intro hcc
              exact absurd hcc (by simp [htrn])
          · intro s hs
            rcases List.mem_append.mp hs with h | h
            · exact h3 s h
            · have hseq : s = joinSpace (sentence_parts item.slots) := by
                simpa using h
              rw [hseq]
              exact joinSpace_ne_empty _ hpnnil hparts_all

/-- Invariant of the whole structure loop. -/
theorem processItem_fold_inv (deps : GeneratorDeps) :
    ∀ (items : List StructItem) (acc : List String × List String × List TraceEntry),
      joinSpace acc.1 = joinSpace (acc.2.2.map (fun t => t.target)) →
      (acc.1 = [] ↔ acc.2.2 = []) →
      (∀ s ∈ acc.1, s ≠ "") →
      (joinSpace (items.foldl (processItem deps) acc).1 =
        joinSpace ((items.foldl (processItem deps) acc).2.2.map (fun t => t.target)))
      ∧ ((items.foldl (processItem deps) acc).1 = [] ↔
          (items.foldl (processItem deps) acc).2.2 = [])
      ∧ (∀ s ∈ (items.foldl (processItem deps) acc).1, s ≠ "") := by
  intro items
  induction items with
  | nil => intro acc g1 g2 g3; exact ⟨g1, g2, g3⟩
  | cons item rest ih =>
    intro acc g1 g2 g3
    simp only [List.foldl_cons]
    obtain ⟨n1, n2, n3⟩ := processItem_inv deps acc item g1 g2 g3
    exact ih _ n1 n2 n3

theorem generateFrom_trace_sound (deps : GeneratorDeps) (items : List StructItem)
    (topic kind : String) :
    ((generateFrom deps items topic kind).lexicon_entries ≠ [] →
      (generateFrom deps items topic kind).text =
        joinSpace ((generateFrom deps items topic kind).lexicon_entries.map
          (fun t => t.target)))
    ∧ ((generateFrom deps items topic kind).lexicon_entries = [] →
      (generateFrom deps items topic kind).text =
        fallback_generation deps.repo topic kind) := by
  obtain ⟨i1, i2, i3⟩ := processItem_fold_inv deps items ([], [], [])
    (by simp [joinSpace]) (by simp) (by simp)
  constructor
  · intro hne
    have hne' : (items.foldl (processItem deps) ([], [], [])).2.2 ≠ [] := by
      simpa [generateFrom] using hne
    have hrs : (items.foldl (processItem deps) ([], [], [])).1 ≠ [] :=
      fun hc => hne' (i2.mp hc)
    have htext : joinSpace (items.foldl (processItem deps) ([], [], [])).1 ≠ "" :=
      joinSpace_ne_empty _ hrs i3
    simp only [generateFrom, if_neg htext]
    exact i1
  · intro hnil
    have hnil' : (items.foldl (processItem deps) ([], [], [])).2.2 = [] := by
      simpa [generateFrom] using hnil
    have hrs : (items.foldl (processItem deps) ([], [], [])).1 = [] :=
      i2.mpr hnil'
    simp [generateFrom, hrs, joinSpace]

/-- C2 (amended): every lexicon entry recorded in the trace contributed
its target text to the returned text — when any entries are traced, the
text is exactly the space-join of their targets in trace order, and when
the fallback text is returned no lexicon entries are traced.  (The
pattern-id part of the original claim is false: see the
counterexample.) -/
theorem generate_trace_entries_sound (deps : GeneratorDeps)
    (kind topic tone length : String) (r : GenResult)
    (h : generate deps kind topic tone length = .ok r) :
    (r.lexicon_entries ≠ [] →
      r.text = joinSpace (r.lexicon_entries.map (fun t => t.target)))
    ∧ (r.lexicon_entries = [] →
      r.text = fallback_generation deps.repo topic kind) := by
  by_cases h1 : kind = "poem"
  · simp only [generate, h1, if_pos rfl] at h
    obtain rfl : generateFrom deps (deps.gen_poem topic tone length) topic kind =
        r := by
      simpa using h
    exact generateFrom_trace_sound deps _ topic kind
  · by_cases h2 : kind = "story"
    · simp only [generate, h1, h2, if_false, if_pos rfl] at h
      obtain rfl : generateFrom deps (deps.gen_story topic tone length) topic kind =
          r := by
        simpa [h1] using h
      exact generateFrom_trace_sound deps _ topic kind
    · by_cases h3 : kind = "lecture"
      · simp only [generate, h1, h2, h3] at h
        obtain rfl :
            generateFrom deps (deps.gen_lecture topic tone length) topic kind = r := by
          simpa [h1, h2] using h
        exact generateFrom_trace_sound deps _ topic kind
      · simp [generate, h1, h2, h3] at h

/-- Counterexample to C2 as stated: a structure item names pattern
`"p1"` (a pattern that exists) but none of its slots carries a target
text, so the pattern contributes nothing, the fallback text `"mmili"` is
returned — and the trace still records the unused pattern id `"p1"`. -/
theorem generate_trace_unused_pattern_id :
    generate
      ⟨⟨fun _ _ _ => [], fun _ _ => [⟨some "g1", "water", "mmili", "noun", "lexicon"⟩], []⟩,
       fun pid => if pid = "p1" then some ⟨"p1", []⟩ else none,
       fun _ _ _ => [⟨none, some "p1", []⟩],
       fun _ _ _ => [], fun _ _ _ => []⟩
      "poem" "rain" "neutral" "short" =
      .ok ⟨"mmili", ["p1"], []⟩
    ∧ fallback_generation
        ⟨fun _ _ _ => [], fun _ _ => [⟨some "g1", "water", "mmili", "noun", "lexicon"⟩], []⟩
        "rain" "poem" = "mmili" :=
  ⟨rfl, rfl⟩

/-- Witness for the amended C2 at a concrete generator whose single
pattern fills two slots. -/
theorem generate_trace_entries_sound_witness :
    (⟨"mu je", ["p2"],
      [⟨none, "i", "mu", "Subject"⟩, ⟨some "v1", "go", "je", "Verb"⟩]⟩ : GenResult).text =
      joinSpace ((⟨"mu je", ["p2"],
        [⟨none, "i", "mu", "Subject"⟩, ⟨some "v1", "go", "je", "Verb"⟩]⟩ : GenResult).lexicon_entries.map
          (fun t => t.target)) :=
  (generate_trace_entries_sound
    ⟨⟨fun _ _ _ => [], fun _ _ => [], []⟩,
     fun pid => if pid = "p2" then some ⟨"p2", ["Subject", "Verb"]⟩ else none,
     fun _ _ _ => [⟨none, some "p2",
       [("Subject", ⟨none, "i", "mu", "pronoun", "pronouns.json"⟩),
        ("Verb", ⟨some "v1", "go", "je", "verb", "lexicon"⟩)]⟩],
     fun _ _ _ => [], fun _ _ _ => []⟩
    "poem" "t" "n" "short"
    ⟨"mu je", ["p2"],
      [⟨none, "i", "mu", "Subject"⟩, ⟨some "v1", "go", "je", "Verb"⟩]⟩
    rfl).1 (by decide)

/-! ## `app/tts/ssml.py` — phoneme markup, escaping, losslessness -/

/-- The word-character class `\w` of the tokenizer regex
(ASCII alphanumerics and underscore, extended with the Latin-1 letters
U+00C0-U+00FF except `×` and `÷`, the fragment of Python's Unicode `\w`
relevant to this dataset). -/
def isWordChar (c : Char) : Bool :=
  ('0' ≤ c && c ≤ '9') || ('A' ≤ c && c ≤ 'Z') || ('a' ≤ c && c ≤ 'z') ||
  c = '_' ||
  (0xC0 ≤ c.val && c.val ≤ 0xFF && c.val ≠ 0xD7 && c.val ≠ 0xF7)

/-- Scanner for `(\s+|[^\w\s]|\w+)` (ssml.py line 43): maximal word
runs, maximal whitespace runs, single other characters.  The state holds
the class of the current run (`true` = word, `false` = whitespace) and
the run itself, reversed. -/
def tokenizeWordsAux : Option (Bool × List Char) → List Char → List (List Char)
  | none, [] => []
  | some (_, cur), [] => [cur.reverse]
  | none, c :: cs =>
    if isWordChar c then tokenizeWordsAux (some (true, [c])) cs
    else if isPySpace c then tokenizeWordsAux (some (false, [c])) cs
    else [c] :: tokenizeWordsAux none cs
  | some (w, cur), c :: cs =>
    if w then
      if isWordChar c then tokenizeWordsAux (some (true, c :: cur)) cs
      else if isPySpace c then cur.reverse :: tokenizeWordsAux (some (false, [c])) cs
      else cur.reverse :: [c] :: tokenizeWordsAux none cs
    else
      if isPySpace c then tokenizeWordsAux (some (false, c :: cur)) cs
      else if isWordChar c then cur.reverse :: tokenizeWordsAux (some (true, [c])) cs
      else cur.reverse :: [c] :: tokenizeWordsAux none cs

/-- `tokenize_words` (ssml.py lines 36-45): `[]` for empty or
whitespace-only text, else the full token scan (the regex `findall`
returns no empty tokens, so the final filter is the identity). -/
def tokenize_words (text : String) : List String :=
  if text.data.all isPySpace then []
  else (tokenizeWordsAux none text.data).map fun l => String.mk l

/-- `_escape_ssml` per character.  The chained `str.replace` calls of
ssml.py lines 26-33 replace `&` first and never re-escape the `&` of an
entity they introduce, so the chain equals this character-wise
expansion. -/
def escChar (c : Char) : List Char :=
  if c = '&' then "&amp;".data
  else if c = '<' then "&lt;".data
  else if c = '>' then "&gt;".data
  else if c = '"' then "&quot;".data
  else [c]

def escape_ssml : List Char → List Char
  | [] => []
  | c :: r => escChar c ++ escape_ssml r

/-- `_FALLBACK_IPA` (ssml.py lines 19-23). -/
def FALLBACK_IPA : List (String × String) :=
  [("a", "a"), ("e", "e"), ("i", "i"), ("o", "o"), ("u", "u"),
   ("n", "n"), ("m", "m"), ("b", "b"), ("k", "k"), ("d", "d"), ("g", "g"),
   ("ya", "ja"), ("nde", "nde"), ("biko", "biko")]

/-- `word_to_ipa` (ssml.py lines 48-63); the dictionary is an
insertion-ordered association list. -/
def word_to_ipa (word : String) (ipa_dict : List (String × String)) :
    Option String :=
  let key := stripStr (lowerStr word)
  if key = "" then none
  else
    match ipa_dict.lookup key with
    | some out => some out
    | none => FALLBACK_IPA.lookup key

/-- The `<phoneme>` element built at ssml.py line 101. -/
def phonemePart (ipa word : String) : List Char :=
  "<phoneme alphabet=\"ipa\" ph=\"".data ++ escape_ssml ipa.data ++
    "\">".data ++ escape_ssml word.data ++ "</phoneme>".data

/-- One loop iteration of `text_to_ssml_with_phonemes`
(ssml.py lines 87-103): raw whitespace, escaped punctuation, and words
either wrapped in a phoneme element or escaped as plain text. -/
def tokenPart (ipa_dict : List (String × String)) (t : String) : List Char :=
  if (t.data.filter fun c => !(isPySpace c)).isEmpty then t.data
  else if t.data.all isPySpace then t.data
  else if t.data.all (fun c => !(isWordChar c)) then escape_ssml t.data
  else
    match word_to_ipa t ipa_dict with
    | some ipa => phonemePart ipa t
    | none => escape_ssml t.data

/-- `text_to_ssml_with_phonemes` (ssml.py lines 78-105). -/
def text_to_ssml_with_phonemes (text : String)
    (ipa_dict : List (String × String)) : String :=
  if (text.data.filter fun c => !(isPySpace c)).isEmpty then "<speak></speak>"
  else
    String.mk ("<speak>".data ++
      ((tokenize_words text).map (tokenPart ipa_dict)).flatten ++ "</speak>".data)

/-- Tag removal for the recovery statement: drop every `<...>` span,
keep everything outside tags (state `true` = inside a tag). -/
def stripTagsAux : Bool → List Char → List Char
  | _, [] => []
  | true, c :: r => if c = '>' then stripTagsAux false r else stripTagsAux true r
  | false, c :: r => if c = '<' then stripTagsAux true r else c :: stripTagsAux false r

def stripTags (l : List Char) : List Char := stripTagsAux false l

/-- Decode a complete entity (the four that `_escape_ssml` emits). -/
def entityDecode (p : List Char) : Option Char :=
  if p = "&amp;".data then some '&'
  else if p = "&lt;".data then some '<'
  else if p = "&gt;".data then some '>'
  else if p = "&quot;".data then some '"'
  else none

/-- Is `p` a prefix of some entity (so reading more characters may still
complete one)? -/
def entityViable (p : List Char) : Bool :=
  p.isPrefixOf "&amp;".data || p.isPrefixOf "&lt;".data ||
  p.isPrefixOf "&gt;".data || p.isPrefixOf "&quot;".data

/-- Entity unescaping for the recovery statement, as a single pass with a
pending-entity buffer (`pending` is empty or a viable entity prefix
starting with `&`). -/
def unescapeAux : List Char → List Char → List Char
  | pending, [] => pending
  | pending, c :: cs =>
    if pending.isEmpty then
      if c = '&' then unescapeAux [c] cs else c :: unescapeAux [] cs
    else
      let p' := pending ++ [c]
      match entityDecode p' with
      | some d => d :: unescapeAux [] cs
      | none =>
        if entityViable p' then unescapeAux p' cs
        else if c = '&' then pending ++ unescapeAux [c] cs
        else p' ++ unescapeAux [] cs

def unescapeEntities (l : List Char) : List Char := unescapeAux [] l

end Ika

namespace Ika

/-! ### Character-class and escaping lemmas for the markup round trip -/

theorem space_not_word {c : Char} (h : isPySpace c = true) : isWordChar c = false := by
  simp only [isPySpace, Bool.or_eq_true, decide_eq_true_eq] at h
  rcases h with ((((h | h) | h) | h) | h) | h <;> subst h <;> decide

theorem space_no_markup {c : Char} (h : isPySpace c = true) :
    c ≠ '<' ∧ c ≠ '&' := by
  simp only [isPySpace, Bool.or_eq_true, decide_eq_true_eq] at h
  rcases h with ((((h | h) | h) | h) | h) | h <;> subst h <;>
    exact ⟨by decide, by decide⟩

theorem word_no_markup {c : Char} (h : isWordChar c = true) :
    c ≠ '&' ∧ c ≠ '<' ∧ c ≠ '>' ∧ c ≠ '"' := by
  refine ⟨?_, ?_, ?_, ?_⟩ <;> intro heq <;> subst heq <;> exact absurd h (by decide)

theorem escChar_of_word {c : Char} (h : isWordChar c = true) : escChar c = [c] := by
  obtain ⟨h1, h2, h3, h4⟩ := word_no_markup h
  simp [escChar, h1, h2, h3, h4]

theorem escape_of_word (l : List Char) (h : ∀ c ∈ l, isWordChar c = true) :
    escape_ssml l = l := by
  induction l with
  | nil => rfl
  | cons c r ih =>
    simp only [escape_ssml, escChar_of_word (h c (List.mem_cons_self c r)),
      List.singleton_append, List.cons.injEq, true_and]
    exact ih fun x hx => h x (List.mem_cons_of_mem c hx)

theorem escChar_no_tag_chars (c : Char) :
    '<' ∉ escChar c ∧ '>' ∉ escChar c := by
  unfold escChar
  split_ifs with h1 h2 h3 h4
  · exact ⟨by decide, by decide⟩
  · exact ⟨by decide, by decide⟩
  · exact ⟨by decide, by decide⟩
  · exact ⟨by decide, by decide⟩
  · constructor
    · simp only [List.mem_singleton]
      exact fun hcc => h2 hcc.symm
    · simp only [List.mem_singleton]
      exact fun hcc => h3 hcc.symm

theorem escape_no_tag_chars (l : List Char) :
    '<' ∉ escape_ssml l ∧ '>' ∉ escape_ssml l := by
  induction l with
  | nil => exact ⟨by simp [escape_ssml], by simp [escape_ssml]⟩
  | cons c r ih =>
    simp only [escape_ssml, List.mem_append, not_or]
    exact ⟨⟨(escChar_no_tag_chars c).1, ih.1⟩, ⟨(escChar_no_tag_chars c).2, ih.2⟩⟩

theorem stripTagsAux_false_append (a b : List Char) (h : '<' ∉ a) :
    stripTagsAux false (a ++ b) = a ++ stripTagsAux false b := by
  induction a with
  | nil => rfl
  | cons c r ih =>
    have hc : ¬ c = '<' := fun hcc => h (hcc ▸ List.mem_cons_self c r)
    simp only [List.cons_append, stripTagsAux, if_neg hc, List.append_eq]
    rw [ih fun hx => h (List.mem_cons_of_mem c hx)]

theorem stripTagsAux_true_append (a b : List Char) (h : '>' ∉ a) :
    stripTagsAux true (a ++ '>' :: b) = stripTagsAux false b := by
  induction a with
  | nil => simp [stripTagsAux]
  | cons c r ih =>
    have hc : ¬ c = '>' := fun hcc => h (hcc ▸ List.mem_cons_self c r)
    simp only [List.cons_append, stripTagsAux, if_neg hc]
    exact ih fun hx => h (List.mem_cons_of_mem c hx)

theorem unescapeAux_nil_append (a b : List Char) (h : '&' ∉ a) :
    unescapeAux [] (a ++ b) = a ++ unescapeAux [] b := by
  induction a with
  | nil => rfl
  | cons c r ih =>
    have hc : ¬ c = '&' := fun hcc => h (hcc ▸ List.mem_cons_self c r)
    have hstep : unescapeAux [] ((c :: r) ++ b) = c :: unescapeAux [] (r ++ b) := by
      simp [unescapeAux, hc]
    rw [hstep, ih fun hx => h (List.mem_cons_of_mem c hx)]
    simp

theorem unescapeAux_escChar (c : Char) (rest : List Char) :
    unescapeAux [] (escChar c ++ rest) = c :: unescapeAux [] rest := by
  by_cases h1 : c = '&'
  · subst h1; rfl
  · by_cases h2 : c = '<'
    · subst h2; rfl
    · by_cases h3 : c = '>'
      · subst h3; rfl
      · by_cases h4 : c = '"'
        · subst h4; rfl
        · simp [escChar, h1, h2, h3, h4, unescapeAux]

theorem unescapeAux_escape (l rest : List Char) :
    unescapeAux [] (escape_ssml l ++ rest) = l ++ unescapeAux [] rest := by
  induction l with
  | nil => rfl
  | cons c r ih =>
    simp only [escape_ssml, List.append_assoc]
    rw [unescapeAux_escChar c (escape_ssml r ++ rest), ih]
    rfl

/-- The characters a scanner state still holds. -/
def pendingChars : Option (Bool × List Char) → List Char
  | none => []
  | some (_, cur) => cur.reverse

/-- The token scan covers every character of the input in order. -/
theorem tokenizeWordsAux_flatten :
    ∀ (l : List Char) (st), (tokenizeWordsAux st l).flatten = pendingChars st ++ l := by
  intro l
  induction l with
  | nil =>
    intro st
    match st with
    | none => simp [tokenizeWordsAux, pendingChars]
    | some (w, cur) => simp [tokenizeWordsAux, pendingChars]
  | cons c cs ih =>
    intro st
    match st with
    | none =>
      by_cases hw : isWordChar c
      · simp [tokenizeWordsAux, hw, ih, pendingChars]
      · by_cases hs : isPySpace c
        · simp [tokenizeWordsAux, hw, hs, ih, pendingChars]
        · simp [tokenizeWordsAux, hw, hs, ih, pendingChars]
    | some (w, cur) =>
      match w with
      | true =>
        by_cases hw : isWordChar c
        · simp [tokenizeWordsAux, hw, ih, pendingChars]
        · by_cases hs : isPySpace c
          · simp [tokenizeWordsAux, hw, hs, ih, pendingChars]
          · simp [tokenizeWordsAux, hw, hs, ih, pendingChars]
      | false =>
        by_cases hs : isPySpace c
        · simp [tokenizeWordsAux, hs, ih, pendingChars]
        · by_cases hw : isWordChar c
          · simp [tokenizeWordsAux, hw, hs, ih, pendingChars]
          · simp [tokenizeWordsAux, hw, hs, ih, pendingChars]

/-- The three shapes a token of the scanner can have. -/
def goodToken (t : List Char) : Prop :=
  (t ≠ [] ∧ ∀ c ∈ t, isWordChar c = true) ∨
  (t ≠ [] ∧ ∀ c ∈ t, isPySpace c = true) ∨
  (∃ c, t = [c] ∧ isWordChar c = false ∧ isPySpace c = false)

/-- Validity of a scanner state: a pending run is nonempty and
homogeneous in its class. -/
def stateOk : Option (Bool × List Char) → Prop
  | none => True
  | some (w, cur) =>
    cur ≠ [] ∧ ∀ c ∈ cur, (if w then isWordChar c else isPySpace c) = true

theorem goodToken_of_state {w : Bool} {cur : List Char}
    (h : stateOk (some (w, cur))) : goodToken cur.reverse := by
  obtain ⟨hne, hall⟩ := h
  match w with
  | true =>
    left
    refine ⟨by simpa using hne, ?_⟩
    intro c hc
    simpa using hall c (List.mem_reverse.mp hc)
  | false =>
    right; left
    refine ⟨by simpa using hne, ?_⟩
    intro c hc
    simpa using hall c (List.mem_reverse.mp hc)

/-- Every token the scanner emits is a word run, a whitespace run, or a
single other character. -/
theorem tokenizeWordsAux_good :
    ∀ (l : List Char) (st), stateOk st →
      ∀ t ∈ tokenizeWordsAux st l, goodToken t := by
  intro l
  induction l with
  | nil =>
    intro st hst t ht
    match st with
    | none => simp [tokenizeWordsAux] at ht
    | some (w, cur) =>
      simp only [tokenizeWordsAux, List.mem_singleton] at ht
      subst ht
      exact goodToken_of_state hst
  | cons c cs ih =>
    intro st hst t ht
    match st with
    | none =>
      by_cases hw : isWordChar c
      · have hstep : tokenizeWordsAux none (c :: cs) =
            tokenizeWordsAux (some (true, [c])) cs := by
          simp [tokenizeWordsAux, hw]
        rw [hstep] at ht
        refine ih (some (true, [c])) ⟨by simp, ?_⟩ t ht
        intro x hx
        simp only [List.mem_singleton] at hx
        subst hx
        simpa using hw
      · by_cases hs : isPySpace c
        · have hstep : tokenizeWordsAux none (c :: cs) =
              tokenizeWordsAux (some (false, [c])) cs := by
            simp [tokenizeWordsAux, hw, hs]
          rw [hstep] at ht
          refine ih (some (false, [c])) ⟨by simp, ?_⟩ t ht
          intro x hx
          simp only [List.mem_singleton] at hx
          subst hx
          simpa using hs
        · have hstep : tokenizeWordsAux none (c :: cs) =
              [c] :: tokenizeWordsAux none cs := by
            simp [tokenizeWordsAux, hw, hs]
          rw [hstep] at ht
          rcases List.mem_cons.mp ht with ht | ht
          · subst ht
            right; right
            exact ⟨c, rfl, by simpa using hw, by simpa using hs⟩
          · exact ih none trivial t ht
    | some (w, cur) =>
      match w with
      | true =>
        by_cases hw : isWordChar c
        · have hstep : tokenizeWordsAux (some (true, cur)) (c :: cs) =
              tokenizeWordsAux (some (true, c :: cur)) cs := by
            simp [tokenizeWordsAux, hw]
          rw [hstep] at ht
          refine ih (some (true, c :: cur)) ⟨by simp, ?_⟩ t ht
          intro x hx
          rcases List.mem_cons.mp hx with hx | hx
          · subst hx; simpa using hw
          · simpa using hst.2 x hx
        · by_cases hs : isPySpace c
          · have hstep : tokenizeWordsAux (some (true, cur)) (c :: cs) =
                cur.reverse :: tokenizeWordsAux (some (false, [c])) cs := by
              simp [tokenizeWordsAux, hw, hs]
            rw [hstep] at ht
            rcases List.mem_cons.mp ht with ht | ht
            · subst ht; exact goodToken_of_state hst
            · refine ih (some (false, [c])) ⟨by simp, ?_⟩ t ht
              intro x hx
              simp only [List.mem_singleton] at hx
              subst hx
              simpa using hs
          · have hstep : tokenizeWordsAux (some (true, cur)) (c :: cs) =
                cur.reverse :: [c] :: tokenizeWordsAux none cs := by
              simp [tokenizeWordsAux, hw, hs]
            rw [hstep] at ht
            rcases List.mem_cons.mp ht with ht | ht
            · subst ht; exact goodToken_of_state hst
            · rcases List.mem_cons.mp ht with ht | ht
              · subst ht
                right; right
                exact ⟨c, rfl, by simpa using hw, by simpa using hs⟩
              · exact ih none trivial t ht
      | false =>
        by_cases hs : isPySpace c
        · have hstep : tokenizeWordsAux (some (false, cur)) (c :: cs) =
              tokenizeWordsAux (some (false, c :: cur)) cs := by
            simp [tokenizeWordsAux, hs]
          rw [hstep] at ht
          refine ih (some (false, c :: cur)) ⟨by simp, ?_⟩ t ht
          intro x hx
          rcases List.mem_cons.mp hx with hx | hx
          · subst hx; simpa using hs
          · simpa using hst.2 x hx
        · by_cases hw : isWordChar c
          · have hstep : tokenizeWordsAux (some (false, cur)) (c :: cs) =
                cur.reverse :: tokenizeWordsAux (some (true, [c])) cs := by
              simp [tokenizeWordsAux, hw, hs]
            rw [hstep] at ht
            rcases List.mem_cons.mp ht with ht | ht
            · subst ht; exact goodToken_of_state hst
            · refine ih (some (true, [c])) ⟨by simp, ?_⟩ t ht
              intro x hx
              simp only [List.mem_singleton] at hx
              subst hx
              simpa using hw
          · have hstep : tokenizeWordsAux (some (false, cur)) (c :: cs) =
                cur.reverse :: [c] :: tokenizeWordsAux none cs := by
              simp [tokenizeWordsAux, hw, hs]
            rw [hstep] at ht
            rcases List.mem_cons.mp ht with ht | ht
            · subst ht; exact goodToken_of_state hst
            · rcases List.mem_cons.mp ht with ht | ht
              · subst ht
                right; right
                exact ⟨c, rfl, by simpa using hw, by simpa using hs⟩
              · exact ih none trivial t ht

theorem word_not_space {c : Char} (h : isWordChar c = true) : isPySpace c = false := by
  by_cases hs : isPySpace c = true
  · rw [space_not_word hs] at h
    exact absurd h (by decide)
  · simpa using hs

theorem stripTagsAux_false_lt (y : List Char) :
    stripTagsAux false ('<' :: y) = stripTagsAux true y := by
  simp [stripTagsAux]

/-- Stripping the tags of a `<phoneme>` element leaves exactly its
escaped display text. -/
theorem strip_phonemePart (ipa word : String) (X : List Char) :
    stripTagsAux false (phonemePart ipa word ++ X) =
      escape_ssml word.data ++ stripTagsAux false X := by
  have e1 : ("<phoneme alphabet=\"ipa\" ph=\"" : String).data =
      '<' :: ("phoneme alphabet=\"ipa\" ph=\"" : String).data := rfl
  have e3 : ("</phoneme>" : String).data =
      '<' :: (("/phoneme" : String).data ++ ['>']) := rfl
  rw [phonemePart, e1, e3]
  have hshape :
      ('<' :: ("phoneme alphabet=\"ipa\" ph=\"" : String).data ++
        escape_ssml ipa.data ++ ("\">" : String).data ++ escape_ssml word.data ++
        '<' :: (("/phoneme" : String).data ++ ['>'])) ++ X =
      '<' :: ((("phoneme alphabet=\"ipa\" ph=\"" : String).data ++
          escape_ssml ipa.data ++ ['"']) ++ '>' ::
        (escape_ssml word.data ++
          '<' :: (("/phoneme" : String).data ++ '>' :: X))) := by
    have e2 : ("\">" : String).data = ['"', '>'] := rfl
    rw [e2]
    simp [List.append_assoc]
  have hA1 : '>' ∉ ("phoneme alphabet=\"ipa\" ph=\"" : String).data ++
      escape_ssml ipa.data ++ ['"'] := by
    intro hmem
    rcases List.mem_append.mp hmem with hmem | hmem
    · rcases List.mem_append.mp hmem with hmem | hmem
      · exact absurd hmem (by decide)
      · exact (escape_no_tag_chars ipa.data).2 hmem
    · exact absurd hmem (by decide)
  have hA2 : '>' ∉ ("/phoneme" : String).data := by decide
  rw [hshape, stripTagsAux_false_lt, stripTagsAux_true_append _ _ hA1,
    stripTagsAux_false_append _ _ (escape_no_tag_chars word.data).1,
    stripTagsAux_false_lt, stripTagsAux_true_append _ _ hA2]

/-- One token of the markup, stripped and unescaped, recovers exactly the
token's surface text. -/
theorem tokenPart_recover (d : List (String × String)) (t : String)
    (hg : goodToken t.data) (X : List Char) :
    unescapeAux [] (stripTagsAux false (tokenPart d t ++ X)) =
      t.data ++ unescapeAux [] (stripTagsAux false X) := by
  rcases hg with ⟨hne, hword⟩ | ⟨hne, hspace⟩ | ⟨c, hc, hw, hs⟩
  · -- word token
    obtain ⟨a, ha⟩ := List.exists_mem_of_ne_nil t.data hne
    have hfilter : t.data.filter (fun c => !(isPySpace c)) = t.data := by
      rw [List.filter_eq_self]
      intro x hx
      simp [word_not_space (hword x hx)]
    have hb1 : (t.data.filter fun c => !(isPySpace c)).isEmpty = false := by
      rw [hfilter]
      simpa [List.isEmpty_iff] using hne
    have hb2 : t.data.all isPySpace = false := by
      cases hall : t.data.all isPySpace with
      | false => rfl
      | true =>
        have := List.all_eq_true.mp hall a ha
        rw [word_not_space (hword a ha)] at this
        exact absurd this (by decide)
    have hb3 : (t.data.all fun c => !(isWordChar c)) = false := by
      cases hall : t.data.all fun c => !(isWordChar c) with
      | false => rfl
      | true =>
        have := List.all_eq_true.mp hall a ha
        rw [hword a ha] at this
        exact absurd this (by decide)
    cases hipa : word_to_ipa t d with
    | none =>
      have htp : tokenPart d t = escape_ssml t.data := by
        simp [tokenPart, hb1, hb2, hb3, hipa]
      rw [htp, stripTagsAux_false_append _ _ (escape_no_tag_chars t.data).1,
        unescapeAux_escape]
    | some ipa =>
      have htp : tokenPart d t = phonemePart ipa t := by
        simp [tokenPart, hb1, hb2, hb3, hipa]
      rw [htp, strip_phonemePart, unescapeAux_escape]
  · -- whitespace token
    have hfilter : t.data.filter (fun c => !(isPySpace c)) = [] := by
      rw [List.filter_eq_nil_iff]
      intro x hx
      simp [hspace x hx]
    have hb1 : (t.data.filter fun c => !(isPySpace c)).isEmpty = true := by
      rw [hfilter]
      rfl
    have htp : tokenPart d t = t.data := by
      simp [tokenPart, hb1]
    have hnolt : '<' ∉ t.data := fun hm => (space_no_markup (hspace _ hm)).1 rfl
    have hnoamp : '&' ∉ t.data := fun hm => (space_no_markup (hspace _ hm)).2 rfl
    rw [htp, stripTagsAux_false_append _ _ hnolt, unescapeAux_nil_append _ _ hnoamp]
  · -- single non-word, non-space character
    have hb1 : (t.data.filter fun c => !(isPySpace c)).isEmpty = false := by
      rw [hc]
      simp [hs]
    have hb2 : t.data.all isPySpace = false := by
      rw [hc]
      simp [hs]
    have hb3 : (t.data.all fun c => !(isWordChar c)) = true := by
      rw [hc]
      simp [hw]
    have htp : tokenPart d t = escape_ssml [c] := by
      simp [tokenPart, hb1, hb2, hb3, hc, hs, hw]
    have hesc : '<' ∉ escape_ssml [c] := (escape_no_tag_chars [c]).1
    rw [htp, stripTagsAux_false_append _ _ hesc, unescapeAux_escape, hc]

/-- The full markup body followed by the closing tag, stripped and
unescaped, recovers the concatenation of the tokens. -/
theorem ssml_body_recover (d : List (String × String)) :
    ∀ (toks : List String) (X : List Char), (∀ t ∈ toks, goodToken t.data) →
      unescapeAux [] (stripTagsAux false ((toks.map (tokenPart d)).flatten ++ X)) =
        (toks.map (fun t => t.data)).flatten ++
          unescapeAux [] (stripTagsAux false X) := by
  intro toks
  induction toks with
  | nil => intro X _; simp
  | cons t rest ih =>
    intro X hgood
    simp only [List.map_cons, List.flatten_cons, List.append_assoc]
    rw [tokenPart_recover d t (hgood t (List.mem_cons_self t rest))]
    rw [ih X fun x hx => hgood x (List.mem_cons_of_mem t hx)]

/-- C9: for a text with at least one non-whitespace character, the
tokenization covers every character in order, and the emitted phoneme
markup is lossless and safely escaped — removing the `speak` and
`phoneme` tags and unescaping the four entities recovers the original
text exactly. -/
theorem ssml_phoneme_markup_roundtrip (text : String) (d : List (String × String))
    (h : ∃ c ∈ text.data, isPySpace c = false) :
    ((tokenize_words text).map (fun t => t.data)).flatten = text.data
    ∧ unescapeEntities
        (stripTags (text_to_ssml_with_phonemes text d).data) = text.data := by
  obtain ⟨c0, hc0mem, hc0⟩ := h
  have hallfalse : text.data.all isPySpace = false := by
    cases hall : text.data.all isPySpace with
    | false => rfl
    | true =>
      have := List.all_eq_true.mp hall c0 hc0mem
      rw [hc0] at this
      exact absurd this (by decide)
  have hfilterne : (text.data.filter fun c => !(isPySpace c)).isEmpty = false := by
    have hmem : c0 ∈ text.data.filter fun c => !(isPySpace c) :=
      List.mem_filter.mpr ⟨hc0mem, by simp [hc0]⟩
    cases hemp : (text.data.filter fun c => !(isPySpace c)).isEmpty with
    | false => rfl
    | true =>
      rw [List.isEmpty_iff.mp hemp] at hmem
      exact absurd hmem (List.not_mem_nil c0)
  have hcover : ((tokenize_words text).map (fun t => t.data)).flatten = text.data := by
    simp only [tokenize_words, hallfalse, Bool.false_eq_true, if_false]
    rw [List.map_map]
    have hid : ((fun t => String.data t) ∘ fun l => String.mk l) =
        (id : List Char → List Char) := rfl
    rw [hid, List.map_id]
    simpa [pendingChars] using tokenizeWordsAux_flatten text.data none
  refine ⟨hcover, ?_⟩
  have hgood : ∀ t ∈ tokenize_words text, goodToken t.data := by
    intro t ht
    simp only [tokenize_words, hallfalse, Bool.false_eq_true, if_false] at ht
    obtain ⟨l, hl, rfl⟩ := List.mem_map.mp ht
    exact tokenizeWordsAux_good text.data none trivial l hl
  have hml : (text_to_ssml_with_phonemes text d).data =
      ("<speak>" : String).data ++
        ((tokenize_words text).map (tokenPart d)).flatten ++
        ("</speak>" : String).data := by
    simp only [text_to_ssml_with_phonemes, hfilterne, Bool.false_eq_true, if_false]
  show unescapeAux []
      (stripTagsAux false (text_to_ssml_with_phonemes text d).data) = text.data
  rw [hml]
  have hshape : ("<speak>" : String).data ++
      ((tokenize_words text).map (tokenPart d)).flatten ++
      ("</speak>" : String).data =
      '<' :: (("speak" : String).data ++ '>' ::
        (((tokenize_words text).map (tokenPart d)).flatten ++
          ("</speak>" : String).data)) := by
    simp [List.append_assoc]
  rw [hshape, stripTagsAux_false_lt, stripTagsAux_true_append _ _ (by decide),
    ssml_body_recover d _ _ hgood]
  have hclose : unescapeAux [] (stripTagsAux false ("</speak>" : String).data) = [] := by
    decide
  rw [hclose, List.append_nil, hcover]

/-- Witness for C9 on a text with punctuation and markup-significant
characters and a transcription containing `<` and `&`. -/
theorem ssml_phoneme_markup_roundtrip_witness :
    ((tokenize_words "biko, <&\"> nke!").map (fun t => t.data)).flatten =
      ("biko, <&\"> nke!" : String).data
    ∧ unescapeEntities
        (stripTags (text_to_ssml_with_phonemes "biko, <&\"> nke!"
          [("biko", "bi<k&o")]).data) = ("biko, <&\"> nke!" : String).data :=
  ssml_phoneme_markup_roundtrip "biko, <&\"> nke!" [("biko", "bi<k&o")]
    ⟨'b', by decide, by decide⟩

end Ika
